import Mathlib

/-!
Verification development for the `bayes_filter` repository
(`src/filter.py`: `set_up_kalman_filter` and `kalman_filter`).

The embedding is shallow:
* scalars are modelled as rationals (`ℚ`); the claims under study are
  structural (which slots are read/written, shapes, masks, lengths) and do
  not depend on floating-point rounding;
* a numpy array of shape `(n, k, 1)` is modelled as a `List` of rows, each
  row a `List ℚ` of length `k` (the trailing singleton axis is collapsed);
* the external Kalman primitive (`filterpy.kalman.KalmanFilter`) is a black
  box per the spec; its `predict` and `update` are abstract parameters
  acting on an abstract filter state carrying `x`, `P` and `log_likelihood`;
* the external covariance-shrinkage estimator producing `Q` is likewise an
  abstract parameter;
* fallible index arithmetic (python `IndexError` on out-of-bounds numpy
  access, boolean-mask length mismatch) is modelled with `Option`: a run
  that would raise returns `none`.
-/

set_option maxRecDepth 8000

namespace BayesFilter

/-- Contiguous-substring test on character lists: `hasSub pat s` is true
when `pat` occurs inside `s` (python `pat in s` for strings). -/
def hasSub (pat : List Char) : List Char → Bool
  | [] => pat.isPrefixOf ([] : List Char)
  | c :: cs => pat.isPrefixOf (c :: cs) || hasSub pat cs

/-- Python string containment `pat in s`. -/
def strContains (s pat : String) : Bool := hasSub pat.toList s.toList

/-- Inputs of `set_up_kalman_filter` (src/filter.py line 22).  A pandas
series/column is a `List ℚ` indexed by time positions `0 .. n-1`; the
fitted-parameter dict is its (ordered) key list `paramNames` plus the value
map `paramVal`; `endogCount` is `len(endog)`. -/
structure SetupInput where
  p : ℕ
  q : ℕ
  d : ℕ
  xdim : ℕ
  zdim : ℕ
  endogCount : ℕ
  exog : List String
  paramNames : List String
  paramVal : String → ℚ
  endogSeries : List ℚ
  maResid : List ℚ
  exogData : String → List ℚ
  measurement_noise : ℚ
  x0v : ℚ
  P0v : ℚ

/-- `no_params = p + q + d` (src/filter.py line 31). -/
def no_params (inp : SetupInput) : ℕ := inp.p + inp.q + inp.d

/-- `ar_params = [col for col in param_names if 'ar.' in col]` (line 34). -/
def ar_params (inp : SetupInput) : List String :=
  inp.paramNames.filter (fun col => strContains col "ar.")

/-- `ma_parmas = [col for col in param_names if 'ma.' in col]` (line 35,
source spelling kept). -/
def ma_parmas (inp : SetupInput) : List String :=
  inp.paramNames.filter (fun col => strContains col "ma.")

/-- `exo_params = [col for col in param_names if col in exog]` (line 36). -/
def exo_params (inp : SetupInput) : List String :=
  inp.paramNames.filter (fun col => inp.exog.contains col)

/-- `state_vars = [*chain(ar_params, ma_parmas, exo_params)]` (line 42). -/
def state_vars (inp : SetupInput) : List String :=
  ar_params inp ++ ma_parmas inp ++ exo_params inp

/-- `ma_bool_mask = [True if "ma.L" in item else False for item in state_vars]`
(line 48; recomputed identically at line 124 of the filter loop). -/
def ma_bool_mask (sv : List String) : List Bool :=
  sv.map (fun item => strContains item "ma.L")

/-- `ar_bool_mask = [True if "ar.L" in item else False for item in state_vars]`
(line 49). -/
def ar_bool_mask (sv : List String) : List Bool :=
  sv.map (fun item => strContains item "ar.L")

/-- Row mask `[True if item == f'ma.L{ix}' else False for item in state_vars]`
for a given lag `ix`; the source's `ma_partial_mask` (line 125) is the list
of these for `ix in range(1, q + 1)`, so its entry `[iz]` is this mask at
lag `ix = iz + 1`. -/
def ma_lag_mask (sv : List String) (ix : ℕ) : List Bool :=
  sv.map (fun item => item == "ma.L" ++ Nat.repr ix)

/-- Keys of a python dict built by insertion over a key list: first
occurrences, in order (used for `{item: arima_params[item] for item in
state_vars}`, line 45). -/
def dedupKeys (l : List String) : List String :=
  l.foldl (fun acc k => if acc.contains k then acc else acc ++ [k]) []

/-- `list(arima_params.values())` after the reordering dict comprehension of
line 45: the values in state-vector order (line 58 wraps it as row 0 of T). -/
def row0 (inp : SetupInput) : List ℚ :=
  (dedupKeys (state_vars inp)).map inp.paramVal

/-- `ar_T` (line 54): one row per `i in range(1, p)`, one-hot at items equal
to `f'ar.L{i}'`. -/
def arT (inp : SetupInput) : List (List ℚ) :=
  (List.range' 1 (inp.p - 1)).map (fun i =>
    (state_vars inp).map (fun item =>
      if item == "ar.L" ++ Nat.repr i then (1 : ℚ) else 0))

/-- `ma_T` (line 55): one row per `i in range(1, q + 1)`, one-hot at items
equal to `f'ma.L{i}'`. -/
def maT (inp : SetupInput) : List (List ℚ) :=
  (List.range' 1 inp.q).map (fun i =>
    (state_vars inp).map (fun item =>
      if item == "ma.L" ++ Nat.repr i then (1 : ℚ) else 0))

/-- `exo_T` (line 56): one row per exogenous parameter, one-hot at the state
variable equal to it. -/
def exoT (inp : SetupInput) : List (List ℚ) :=
  (exo_params inp).map (fun exo =>
    (state_vars inp).map (fun name => if exo == name then (1 : ℚ) else 0))

/-- The transition matrix `T` (lines 58-61): row 0 of coefficients, then the
`ar_T` rows when `p > 1`, the `ma_T` rows when `q > 0`, the `exo_T` rows when
`d > 0` (`np.append(..., axis=1)` on the `(1, rows, cols)`-lifted arrays is
row concatenation). -/
def Tmat (inp : SetupInput) : List (List ℚ) :=
  [row0 inp]
    ++ (if 1 < inp.p then arT inp else [])
    ++ (if 0 < inp.q then maT inp else [])
    ++ (if 0 < inp.d then exoT inp else [])

/-- `np.diag([v] * n)`. -/
def diag (n : ℕ) (v : ℚ) : List (List ℚ) :=
  (List.range n).map (fun i => (List.range n).map (fun j => if i = j then v else 0))

/-- Modelled from the spec: `get_ARlags` (imported from `src/utils`, a file
not present in the repository snapshot) builds the `k` lagged columns of a
series; per spec section 4.3 the lag-`j` column at time `t` holds the series
value at `t - j` for `j = 1 .. k`, missing (NaN, here `none`) where the lag
reaches before the start of the series.  This is one row (time `t`) of that
lagged table, columns ordered lag 1 .. lag k. -/
def lagRow (ser : List ℚ) (k t : ℕ) : List (Option ℚ) :=
  (List.range' 1 k).map (fun j => if j ≤ t then ser[t - j]? else none)

/-- One row (time `t`) of the joined table `df = ar_df.join(ma_df).join(exo_df)`
(lines 70-75): `p` endogenous lags, `q` residual lags, then the raw exogenous
columns (`data[exog]`); entries missing at this time are `none`. -/
def dfRow (inp : SetupInput) (t : ℕ) : List (Option ℚ) :=
  lagRow inp.endogSeries inp.p t ++ lagRow inp.maResid inp.q t
    ++ inp.exog.map (fun name => (inp.exogData name)[t]?)

/-- The joined table before `dropna`, over the shared time index of the
endogenous series. -/
def dfRaw (inp : SetupInput) : List (List (Option ℚ)) :=
  (List.range inp.endogSeries.length).map (dfRow inp)

/-- `df = df.dropna()` (line 76): keep the rows with no missing entry. -/
def dfRows (inp : SetupInput) : List (List (Option ℚ)) :=
  (dfRaw inp).filter (fun row => row.all (fun o => o.isSome))

/-- `df.values` after the trim: the surviving rows as plain rationals. -/
def dfClean (inp : SetupInput) : List (List ℚ) :=
  (dfRows inp).map (fun row => row.filterMap id)

/-- numpy boolean-mask assignment of one scalar `v` into a row: positions
where the mask is true receive `v`, others keep their value (the mask must
have the row's length for numpy to accept it). -/
def maskWrite (mask : List Bool) (v : ℚ) (row : List ℚ) : List ℚ :=
  List.zipWith (fun b x => if b then v else x) mask row

/-- `zs = df.values.reshape((len(df), no_params, 1))` followed by
`zs[:, ma_bool_mask] = np.zeros((len(df), q, 1))` (lines 78-79): the trimmed
rows with every MA-masked entry set to 0.  (The reshape is row-faithful
because each surviving row has exactly `no_params` values in the regime where
the numpy call succeeds.) -/
def zsOf (inp : SetupInput) : List (List ℚ) :=
  (dfClean inp).map (fun row => maskWrite (ma_bool_mask (state_vars inp)) 0 row)

/-- What `set_up_kalman_filter` returns (line 89), minus the pandas index.
`Q` comes from the external shrinkage estimator (out of scope per spec
section 1), passed in abstractly. -/
structure SetupOutput where
  T : List (List ℚ)
  Q : List (List ℚ)
  Z : List (List ℚ)
  H : List (List ℚ)
  x0 : List ℚ
  P0 : List (List ℚ)
  zs : List (List ℚ)
  state_vars : List String

/-- `set_up_kalman_filter` (lines 22-89).  The four `assert` statements
(line 25 and lines 37-39, in source order) are the only fallible steps of
the construction path; a failing assertion is `none`.  `qEst` is the
external `CovarianceShrinkage(...).ledoit_wolf()` estimator applied to the
joined-and-trimmed table. -/
def set_up_kalman_filter (inp : SetupInput)
    (qEst : List (List ℚ) → List (List ℚ)) : Option SetupOutput :=
  if inp.endogCount = 1 then
    if (ar_params inp).length = inp.p then
      if (ma_parmas inp).length = inp.q then
        if (exo_params inp).length = inp.d then
          some { T := Tmat inp
                 Q := qEst (dfClean inp)
                 Z := diag inp.zdim 1
                 H := diag inp.zdim inp.measurement_noise
                 x0 := List.replicate inp.xdim inp.x0v
                 P0 := diag inp.xdim inp.P0v
                 zs := zsOf inp
                 state_vars := state_vars inp }
        else none
      else none
    else none
  else none

/-! ### The filtering loop (`kalman_filter`, lines 92-153) -/

/-- Abstract state of the black-box `filterpy` Kalman object: the mean
column `x`, covariance `P` and the `log_likelihood` readable after each
update.  `predict` and `update` are abstract parameters of the development
(spec section 1 treats them as external collaborators). -/
structure KFState where
  x : List ℚ
  P : List (List ℚ)
  ll : ℚ

/-- numpy boolean selection `row[mask]`: the entries at true positions, in
order (caller must ensure `mask` has the row's length). -/
def maskSelect (mask : List Bool) (row : List ℚ) : List ℚ :=
  (List.zip mask row).filterMap (fun bx => if bx.1 then some bx.2 else none)

/-- `zs[idx, mask] = v` (line 132): in-bounds write of the scalar `v` into
the masked slots of row `idx`; out of bounds, or a mask whose length does
not match the row (numpy boolean-index error), is `none`. -/
def writeRow (zs : List (List ℚ)) (idx : ℕ) (mask : List Bool) (v : ℚ) :
    Option (List (List ℚ)) :=
  match zs[idx]? with
  | none => none
  | some row =>
    if mask.length = row.length then some (zs.set idx (maskWrite mask v row))
    else none

/-- The injection inner loop `for iz in range(0, q): zs[i + iz + 1,
ma_partial_mask[iz]] = residual` (lines 131-132), over the list of `iz`
values. -/
def injectLoop (sv : List String) (i : ℕ) (v : ℚ) :
    List ℕ → List (List ℚ) → Option (List (List ℚ))
  | [], zs => some zs
  | iz :: rest, zs =>
    match writeRow zs (i + iz + 1) (ma_lag_mask sv (iz + 1)) v with
    | none => none
    | some zs2 => injectLoop sv i v rest zs2

/-- The MA-injection block (lines 128-132): when `q > 0` and
`i + q-1 + 1 < len(zs)`, read `residual = zs[i + 1, ma_bool_mask][0] -
kfilter.x[0]` and write it `q` rows ahead; otherwise leave `zs` alone.
Returns the possibly-updated tensor and the residual when one was injected;
`none` models the numpy `IndexError` paths (row out of bounds, mask length
mismatch, empty masked selection, empty state mean).  `xv` is `kfilter.x`
right after the update step. -/
def maInject (q : ℕ) (sv : List String) (m i : ℕ) (xv : List ℚ)
    (zs : List (List ℚ)) : Option (List (List ℚ) × Option ℚ) :=
  if 0 < q then
    if i + (q - 1) + 1 < m then
      match zs[i + 1]? with
      | none => none
      | some row =>
        if (ma_bool_mask sv).length = row.length then
          match (maskSelect (ma_bool_mask sv) row).head? with
          | none => none
          | some r0 =>
            match xv.head? with
            | none => none
            | some xh =>
              match injectLoop sv i (r0 - xh) (List.range q) zs with
              | none => none
              | some zs2 => some (zs2, some (r0 - xh))
        else none
    else some (zs, none)
  else some (zs, none)

/-- `if i + 1 < len(zs): z = zs[i + 1]` (line 135): advance the working
observation (and its ghost original-row index, which is `i + 2` because the
tensor was trimmed by one row) or keep the previous one. -/
def zAdvance (m i : ℕ) (zs : List (List ℚ)) (z : List ℚ) (zi : ℕ) :
    Option (List ℚ × ℕ) :=
  if i + 1 < m then
    match zs[i + 1]? with
    | none => none
    | some r => some (r, i + 2)
  else some (z, zi)

/-- Running state of the filtering loop: the Kalman object, the (mutable)
trimmed tensor, the working observation `z` with the ghost index `zi` of the
original row it came from, the five output lists, and two ghost traces: the
original-row index passed to each `update` call, and the `(step, residual)`
pairs of the injections performed. -/
structure LoopSt where
  kf : KFState
  zs : List (List ℚ)
  z : List ℚ
  zi : ℕ
  xOut : List (List ℚ)
  pOut : List (List (List ℚ))
  xPred : List (List ℚ)
  pPred : List (List (List ℚ))
  llOut : List ℚ
  updTrace : List ℕ
  resTrace : List (ℕ × ℚ)

/-- One iteration of `for i in range(0, len(zs)+1)` (lines 113-139):
predict (recording prediction), update on the current `z`, MA injection,
advance `z`, record outputs. -/
def kfStep (pr : KFState → KFState) (up : KFState → List ℚ → KFState)
    (q : ℕ) (sv : List String) (m i : ℕ) (st : LoopSt) : Option LoopSt :=
  let kf1 := pr st.kf
  let kf2 := up kf1 st.z
  match maInject q sv m i kf2.x st.zs with
  | none => none
  | some zr =>
    match zAdvance m i zr.1 st.z st.zi with
    | none => none
    | some zz =>
      some { kf := kf2
             zs := zr.1
             z := zz.1
             zi := zz.2
             xOut := st.xOut ++ [kf2.x]
             pOut := st.pOut ++ [kf2.P]
             xPred := st.xPred ++ [kf1.x]
             pPred := st.pPred ++ [kf1.P]
             llOut := st.llOut ++ [kf2.ll]
             updTrace := st.updTrace ++ [st.zi]
             resTrace := st.resTrace ++
               (match zr.2 with | some v => [(i, v)] | none => []) }

/-- The loop itself: `n` remaining iterations starting at index `i`
(`m = len(zs)` after the trim is fixed for the whole run, since the loop
only mutates entries). -/
def kfLoop (pr : KFState → KFState) (up : KFState → List ℚ → KFState)
    (q : ℕ) (sv : List String) (m : ℕ) :
    ℕ → ℕ → LoopSt → Option LoopSt
  | _, 0, st => some st
  | i, n + 1, st =>
    match kfStep pr up q sv m i st with
    | none => none
    | some st2 => kfLoop pr up q sv m (i + 1) n st2

/-- What a completed run returns (line 153), plus the final tensor and the
two ghost traces. -/
structure KFResult where
  xOut : List (List ℚ)
  pOut : List (List (List ℚ))
  xPred : List (List ℚ)
  pPred : List (List (List ℚ))
  llOut : List ℚ
  zsFinal : List (List ℚ)
  updTrace : List ℕ
  resTrace : List (ℕ × ℚ)

/-- `kalman_filter` (lines 92-153): take `z = zs[0]`, trim `zs = zs[1:]`,
run `len(zs) + 1` loop iterations, then one final predict with no update.
The unused python arguments (`xdim, zdim, p, d, T, Q, Z, H`) are absorbed by
the abstract `pr`/`up` primitives, which the `filterpy` object closes over.
An empty input tensor is `none` (`zs[0]` raises). -/
def kalman_filter (pr : KFState → KFState) (up : KFState → List ℚ → KFState)
    (q : ℕ) (sv : List String) (x0 : KFState) (zs : List (List ℚ)) :
    Option KFResult :=
  match zs with
  | [] => none
  | z0 :: rest =>
    let st0 : LoopSt :=
      { kf := x0, zs := rest, z := z0, zi := 0, xOut := [], pOut := [],
        xPred := [], pPred := [], llOut := [], updTrace := [], resTrace := [] }
    match kfLoop pr up q sv rest.length 0 (rest.length + 1) st0 with
    | none => none
    | some st =>
      let kfF := pr st.kf
      some { xOut := st.xOut
             pOut := st.pOut
             xPred := st.xPred ++ [kfF.x]
             pPred := st.pPred ++ [kfF.P]
             llOut := st.llOut
             zsFinal := st.zs
             updTrace := st.updTrace
             resTrace := st.resTrace }

/-- The evolution of the ghost row index of the working observation through
the loop, written as its own recursion so closed forms can be proved about
it: each iteration contributes the current index, and the index advances to
`i + 2` exactly when `i + 1 < m`. -/
def traceSeg (m : ℕ) : ℕ → ℕ → ℕ → List ℕ
  | _, 0, _ => []
  | i, n + 1, v => v :: traceSeg m (i + 1) n (if i + 1 < m then i + 2 else v)

/-- Canonical AR parameter name `f'ar.L{i}'`. -/
def arName (i : ℕ) : String := "ar.L" ++ Nat.repr i

/-- Canonical MA parameter name `f'ma.L{i}'`. -/
def maName (i : ℕ) : String := "ma.L" ++ Nat.repr i

/-- The statsmodels AR coefficient names in fitting order, `ar.L1 .. ar.Lp`. -/
def arCanon (p : ℕ) : List String := (List.range' 1 p).map arName

/-- The statsmodels MA coefficient names in fitting order, `ma.L1 .. ma.Lq`. -/
def maCanon (q : ℕ) : List String := (List.range' 1 q).map maName

/-- Number of rows the `ar_T` block contributes to `T` (`p - 1` when the
`p > 1` branch fires, else none). -/
def arRowCnt (inp : SetupInput) : ℕ := if 1 < inp.p then inp.p - 1 else 0

/-! ### Concrete instances used by witnesses and counterexamples -/

/-- A well-formed construction input with `p = 2`, `q = 1`, `d = 1`. -/
def wSet : SetupInput :=
  { p := 2, q := 1, d := 1, xdim := 4, zdim := 4, endogCount := 1,
    exog := ["ex1"], paramNames := ["ar.L1", "ar.L2", "ma.L1", "ex1"],
    paramVal := fun s => if s = "ar.L1" then 2 else if s = "ar.L2" then 3
      else if s = "ma.L1" then 5 else 7,
    endogSeries := [10, 11, 12], maResid := [4, 5, 6],
    exogData := fun _ => [20, 21, 22],
    measurement_noise := 1, x0v := 1, P0v := 1 }

/-- A construction input with `p = 1`, `q = 2`, `d = 0`: assertions pass and
its `T` exhibits the identity (not shift) structure of the MA block. -/
def cexC2inp : SetupInput :=
  { p := 1, q := 2, d := 0, xdim := 3, zdim := 3, endogCount := 1,
    exog := [], paramNames := ["ar.L1", "ma.L1", "ma.L2"],
    paramVal := fun _ => 1, endogSeries := [], maResid := [],
    exogData := fun _ => [], measurement_noise := 1, x0v := 1, P0v := 1 }

/-- A construction input with `p = 0`, `q = 1`, `d = 0`: assertions pass
(no name contains `ar.`) but the constructed `T` is not square. -/
def cexC6inp : SetupInput :=
  { p := 0, q := 1, d := 0, xdim := 1, zdim := 1, endogCount := 1,
    exog := [], paramNames := ["ma.L1"],
    paramVal := fun _ => 1, endogSeries := [], maResid := [],
    exogData := fun _ => [], measurement_noise := 1, x0v := 1, P0v := 1 }

/-- State-variable names for concrete filter runs: one AR and one MA slot. -/
def wSv : List String := ["ar.L1", "ma.L1"]

/-- A three-row observation tensor for concrete filter runs. -/
def wZs : List (List ℚ) := [[1, 0], [2, 0], [3, 0]]

/-- A concrete black-box predict: the identity on the filter state. -/
def wPr : KFState → KFState := id

/-- A concrete black-box update: constant state with mean `[5]`. -/
def wUp : KFState → List ℚ → KFState := fun _ _ => ⟨[5], [], 0⟩

/-- A concrete initial filter state. -/
def wX0 : KFState := ⟨[0], [], 0⟩

/-! ### Basic lemmas about the helpers -/

lemma isPrefixOf_nil_left (l : List Char) : List.isPrefixOf ([] : List Char) l = true := by
  cases l <;> rfl

lemma isPrefixOf_append_self : ∀ (l t : List Char), l.isPrefixOf (l ++ t) = true
  | [], t => isPrefixOf_nil_left t
  | a :: as, t => by
    show (a == a && as.isPrefixOf (as ++ t)) = true
    rw [beq_self_eq_true, Bool.true_and, isPrefixOf_append_self as t]

lemma hasSub_cons (pat : List Char) (c : Char) (cs : List Char) :
    hasSub pat (c :: cs) = (pat.isPrefixOf (c :: cs) || hasSub pat cs) := rfl

lemma hasSub_append_self (p t : List Char) : hasSub p (p ++ t) = true := by
  cases p with
  | nil =>
    cases t with
    | nil => rfl
    | cons c cs => rw [List.nil_append, hasSub_cons, isPrefixOf_nil_left, Bool.true_or]
  | cons a as =>
    rw [List.cons_append, hasSub_cons, ← List.cons_append, isPrefixOf_append_self,
      Bool.true_or]

/-- A string contains any of its own leading segments. -/
lemma strContains_append_left (a b : String) : strContains (a ++ b) a = true := by
  unfold strContains
  have h : (a ++ b).toList = a.toList ++ b.toList := String.data_append a b
  rw [h]
  exact hasSub_append_self a.toList b.toList

lemma map_eq_replicate {α β : Type _} (f : α → β) (b : β) (l : List α)
    (h : ∀ x ∈ l, f x = b) : l.map f = List.replicate l.length b := by
  induction l with
  | nil => rfl
  | cons a as ih =>
    simp only [List.map_cons, List.length_cons, List.replicate_succ, List.cons.injEq]
    exact ⟨h a (by simp), ih (fun x hx => h x (by simp [hx]))⟩

lemma arCanon_length (p : ℕ) : (arCanon p).length = p := by simp [arCanon]

lemma maCanon_length (q : ℕ) : (maCanon q).length = q := by simp [maCanon]

lemma mem_arCanon_strContains {p : ℕ} {s : String} (h : s ∈ arCanon p) :
    strContains s "ar.L" = true := by
  rcases List.mem_map.mp h with ⟨i, _, rfl⟩
  exact strContains_append_left "ar.L" (Nat.repr i)

lemma mem_maCanon_strContains {q : ℕ} {s : String} (h : s ∈ maCanon q) :
    strContains s "ma.L" = true := by
  rcases List.mem_map.mp h with ⟨i, _, rfl⟩
  exact strContains_append_left "ma.L" (Nat.repr i)

/-! ### Theorems -/

/-- Claim C10: the construction raises an assertion failure if and only if
more than one (or zero) endogenous variables are supplied or one of the
counted parameter groups does not match `p`, `q`, `d`; the four `assert`
statements (src/filter.py lines 25, 37, 38, 39) are the only fallible
validation on the construction path, and they run before any matrix is
built. -/
theorem setup_assert_iff (inp : SetupInput) (qEst : List (List ℚ) → List (List ℚ)) :
    set_up_kalman_filter inp qEst = none ↔
      inp.endogCount ≠ 1 ∨ (ar_params inp).length ≠ inp.p ∨
      (ma_parmas inp).length ≠ inp.q ∨ (exo_params inp).length ≠ inp.d := by
  unfold set_up_kalman_filter
  split_ifs with h1 h2 h3 h4 <;> simp_all

/-- Claim C7: under the statsmodels naming convention (AR names are
`ar.L1 .. ar.Lp` in lag order, MA names `ma.L1 .. ma.Lq`, exogenous names
free of the lag markers), the state vector has length `p + q + d`, the AR
and MA boolean masks select exactly the first `p` and the next `q`
positions (so the two masks plus the remaining `d` exogenous positions
partition the state vector with no overlap and no gap), the three groups
are contiguous in the order AR, MA, exogenous, and the AR/MA groups appear
in increasing lag order. -/
theorem state_vars_partition (inp : SetupInput)
    (Har : ar_params inp = arCanon inp.p)
    (Hma : ma_parmas inp = maCanon inp.q)
    (Hd : (exo_params inp).length = inp.d)
    (Hma_ar : ∀ s ∈ ma_parmas inp, strContains s "ar.L" = false)
    (Har_ma : ∀ s ∈ ar_params inp, strContains s "ma.L" = false)
    (Hexo : ∀ s ∈ exo_params inp,
      strContains s "ar.L" = false ∧ strContains s "ma.L" = false) :
    (state_vars inp).length = inp.p + inp.q + inp.d ∧
    ar_bool_mask (state_vars inp) =
      List.replicate inp.p true ++ List.replicate inp.q false
        ++ List.replicate inp.d false ∧
    ma_bool_mask (state_vars inp) =
      List.replicate inp.p false ++ List.replicate inp.q true
        ++ List.replicate inp.d false ∧
    (state_vars inp).take inp.p = arCanon inp.p ∧
    ((state_vars inp).drop inp.p).take inp.q = maCanon inp.q ∧
    ((state_vars inp).drop inp.p).drop inp.q = exo_params inp := by
  have hAlen : (ar_params inp).length = inp.p := by rw [Har, arCanon_length]
  have hMlen : (ma_parmas inp).length = inp.q := by rw [Hma, maCanon_length]
  have harA : (ar_params inp).map (fun item => strContains item "ar.L")
      = List.replicate inp.p true := by
    rw [← hAlen]
    exact map_eq_replicate _ _ _ (fun x hx => mem_arCanon_strContains (Har ▸ hx))
  have harM : (ma_parmas inp).map (fun item => strContains item "ar.L")
      = List.replicate inp.q false := by
    rw [← hMlen]
    exact map_eq_replicate _ _ _ Hma_ar
  have harE : (exo_params inp).map (fun item => strContains item "ar.L")
      = List.replicate inp.d false := by
    rw [← Hd]
    exact map_eq_replicate _ _ _ (fun x hx => (Hexo x hx).1)
  have hmaA : (ar_params inp).map (fun item => strContains item "ma.L")
      = List.replicate inp.p false := by
    rw [← hAlen]
    exact map_eq_replicate _ _ _ Har_ma
  have hmaM : (ma_parmas inp).map (fun item => strContains item "ma.L")
      = List.replicate inp.q true := by
    rw [← hMlen]
    exact map_eq_replicate _ _ _ (fun x hx => mem_maCanon_strContains (Hma ▸ hx))
  have hmaE : (exo_params inp).map (fun item => strContains item "ma.L")
      = List.replicate inp.d false := by
    rw [← Hd]
    exact map_eq_replicate _ _ _ (fun x hx => (Hexo x hx).2)
  have htake : (state_vars inp).take inp.p = ar_params inp := by
    unfold state_vars
    rw [List.append_assoc]
    exact List.take_left' hAlen
  have hdrop : (state_vars inp).drop inp.p = ma_parmas inp ++ exo_params inp := by
    unfold state_vars
    rw [List.append_assoc]
    exact List.drop_left' hAlen
  refine ⟨?_, ?_, ?_, ?_, ?_, ?_⟩
  · simp only [state_vars, List.length_append, hAlen, hMlen, Hd]
  · unfold ar_bool_mask state_vars
    rw [List.map_append, List.map_append, harA, harM, harE]
  · unfold ma_bool_mask state_vars
    rw [List.map_append, List.map_append, hmaA, hmaM, hmaE]
  · rw [htake, Har]
  · rw [hdrop, List.take_left' hMlen, Hma]
  · rw [hdrop, List.drop_left' hMlen]

/-- Witness for C7 at the concrete input `wSet`. -/
theorem state_vars_partition_witness :
    (state_vars wSet).length = wSet.p + wSet.q + wSet.d ∧
    ar_bool_mask (state_vars wSet) =
      List.replicate wSet.p true ++ List.replicate wSet.q false
        ++ List.replicate wSet.d false ∧
    ma_bool_mask (state_vars wSet) =
      List.replicate wSet.p false ++ List.replicate wSet.q true
        ++ List.replicate wSet.d false ∧
    (state_vars wSet).take wSet.p = arCanon wSet.p ∧
    ((state_vars wSet).drop wSet.p).take wSet.q = maCanon wSet.q ∧
    ((state_vars wSet).drop wSet.p).drop wSet.q = exo_params wSet :=
  state_vars_partition wSet (by decide) (by decide) (by decide)
    (by decide) (by decide) (by decide)

lemma lagRow_length (ser : List ℚ) (k t : ℕ) : (lagRow ser k t).length = k := by
  simp [lagRow]

lemma dfRow_length (inp : SetupInput) (t : ℕ) :
    (dfRow inp t).length = inp.p + inp.q + inp.exog.length := by
  simp only [dfRow, List.length_append, lagRow_length, List.length_map]

lemma filterMap_id_length {α : Type _} (l : List (Option α))
    (h : ∀ o ∈ l, o.isSome) : (l.filterMap id).length = l.length := by
  induction l with
  | nil => rfl
  | cons o os ih =>
    rcases o with _ | a
    · exact absurd (h none (by simp)) (by simp)
    · simp only [List.filterMap_cons, id, List.length_cons]
      rw [ih (fun o ho => h o (by simp [ho]))]

lemma sv_length (inp : SetupInput)
    (Hp : (ar_params inp).length = inp.p)
    (Hq : (ma_parmas inp).length = inp.q)
    (Hd : (exo_params inp).length = inp.d) :
    (state_vars inp).length = no_params inp := by
  simp only [state_vars, no_params, List.length_append, Hp, Hq, Hd]

lemma maskWrite_getElem?_true {mask : List Bool} {v : ℚ} {row : List ℚ} {c : ℕ}
    (hm : mask[c]? = some true) (hc : c < row.length) :
    (maskWrite mask v row)[c]? = some v := by
  unfold maskWrite
  rw [List.getElem?_zipWith, hm, List.getElem?_eq_getElem hc]
  simp

lemma maskWrite_getElem?_false {mask : List Bool} {v : ℚ} {row : List ℚ} {c : ℕ}
    (hm : mask[c]? = some false) :
    (maskWrite mask v row)[c]? = row[c]? := by
  unfold maskWrite
  rw [List.getElem?_zipWith, hm]
  cases hr : row[c]? <;> simp

lemma maskWrite_getElem?_none {mask : List Bool} {v : ℚ} {row : List ℚ} {c : ℕ}
    (hm : mask[c]? = none) : (maskWrite mask v row)[c]? = none := by
  unfold maskWrite
  rw [List.getElem?_zipWith, hm]

lemma dfClean_row_length (inp : SetupInput) (He : inp.exog.length = inp.d) :
    ∀ r ∈ dfClean inp, r.length = no_params inp := by
  intro r hr
  rcases List.mem_map.mp hr with ⟨r0, hr0, rfl⟩
  have hall : ∀ o ∈ r0, o.isSome := by
    have := List.of_mem_filter hr0
    simpa [List.all_eq_true] using this
  have hraw : r0 ∈ dfRaw inp := List.mem_of_mem_filter hr0
  rcases List.mem_map.mp hraw with ⟨t, _, rfl⟩
  rw [filterMap_id_length _ hall, dfRow_length, He]
  rfl

/-- Claim C8: right after construction the observation tensor has one row
per surviving (post-`dropna`) time step, each row has `no_params` scalar
entries (the trailing singleton axis of the numpy shape `(T, no_params, 1)`
is collapsed in this model), and every MA-masked entry of every row is 0.
The hypotheses pin down the regime where the numpy reshape and the masked
zero-assignment succeed (group counts match `p`, `q`, `d`, and the MA mask
selects `q` columns). -/
theorem zs_construction (inp : SetupInput)
    (Hp : (ar_params inp).length = inp.p)
    (Hq : (ma_parmas inp).length = inp.q)
    (Hd : (exo_params inp).length = inp.d)
    (He : inp.exog.length = inp.d)
    (Hcnt : (ma_bool_mask (state_vars inp)).count true = inp.q) :
    (zsOf inp).length = (dfRows inp).length ∧
    (∀ row ∈ zsOf inp, row.length = no_params inp) ∧
    (∀ row ∈ zsOf inp, ∀ c : ℕ,
      (ma_bool_mask (state_vars inp))[c]? = some true → row[c]? = some 0) := by
  have hmask : (ma_bool_mask (state_vars inp)).length = no_params inp := by
    unfold ma_bool_mask
    rw [List.length_map]
    exact sv_length inp Hp Hq Hd
  refine ⟨by simp [zsOf, dfClean], ?_, ?_⟩
  · intro row hrow
    rcases List.mem_map.mp hrow with ⟨r, hr, rfl⟩
    have hrl := dfClean_row_length inp He r hr
    unfold maskWrite
    rw [List.length_zipWith, hmask, hrl, min_self]
  · intro row hrow c hc
    rcases List.mem_map.mp hrow with ⟨r, hr, rfl⟩
    have hrl := dfClean_row_length inp He r hr
    have hcm : c < (ma_bool_mask (state_vars inp)).length := by
      rcases List.getElem?_eq_some_iff.mp hc with ⟨h, _⟩
      exact h
    have hcr : c < r.length := by rw [hrl, ← hmask]; exact hcm
    exact maskWrite_getElem?_true hc hcr

lemma foldl_dedup (l : List String) : ∀ acc : List String, l.Nodup →
    (∀ x ∈ l, x ∉ acc) →
    List.foldl (fun acc k => if acc.contains k then acc else acc ++ [k]) acc l
      = acc ++ l := by
  induction l with
  | nil => intro acc _ _; simp
  | cons k rest ih =>
    intro acc hnd hdis
    have hk : acc.contains k = false := by simpa using hdis k (by simp)
    rw [List.foldl_cons, if_neg (by rw [hk]; exact Bool.false_ne_true)]
    rw [ih (acc ++ [k]) hnd.of_cons ?_]
    · simp
    · intro x hx
      rw [List.mem_append]
      rintro (hxa | hxk)
      · exact hdis x (by simp [hx]) hxa
      · have hxk2 : x = k := by simpa using hxk
        exact (List.nodup_cons.mp hnd).1 (hxk2 ▸ hx)

lemma dedupKeys_eq_self {l : List String} (h : l.Nodup) : dedupKeys l = l := by
  unfold dedupKeys
  simpa using foldl_dedup l [] h (by simp)

lemma arRowCnt_eq {inp : SetupInput} (Hp : 1 ≤ inp.p) : arRowCnt inp = inp.p - 1 := by
  unfold arRowCnt
  split <;> omega

lemma arT_block_length (inp : SetupInput) :
    (if 1 < inp.p then arT inp else []).length = arRowCnt inp := by
  unfold arRowCnt
  split <;> simp [arT]

lemma maT_block_length (inp : SetupInput) :
    (if 0 < inp.q then maT inp else []).length = inp.q := by
  split <;> simp [maT] <;> omega

lemma exoT_block_length (inp : SetupInput) (Hd : (exo_params inp).length = inp.d) :
    (if 0 < inp.d then exoT inp else []).length = inp.d := by
  split <;> simp [exoT, Hd] <;> omega

lemma Tmat_cons (inp : SetupInput) :
    Tmat inp = row0 inp ::
      ((if 1 < inp.p then arT inp else []) ++ (if 0 < inp.q then maT inp else [])
        ++ (if 0 < inp.d then exoT inp else [])) := by
  simp [Tmat]

lemma arCanon_getElem? {p k : ℕ} (hk : k < p) :
    (arCanon p)[k]? = some (arName (k + 1)) := by
  unfold arCanon
  rw [List.getElem?_map, List.getElem?_range' 1 1 hk]
  have h : 1 + 1 * k = k + 1 := by omega
  rw [h]
  rfl

lemma maCanon_getElem? {q k : ℕ} (hk : k < q) :
    (maCanon q)[k]? = some (maName (k + 1)) := by
  unfold maCanon
  rw [List.getElem?_map, List.getElem?_range' 1 1 hk]
  have h : 1 + 1 * k = k + 1 := by omega
  rw [h]
  rfl

lemma sv_ar_getElem? (inp : SetupInput) (Har : ar_params inp = arCanon inp.p)
    {k : ℕ} (hk : k < inp.p) :
    (state_vars inp)[k]? = some (arName (k + 1)) := by
  have hAlen : (ar_params inp).length = inp.p := by rw [Har, arCanon_length]
  unfold state_vars
  rw [List.append_assoc, List.getElem?_append, if_pos (by rw [hAlen]; exact hk),
    Har, arCanon_getElem? hk]

lemma sv_ma_getElem? (inp : SetupInput) (Har : ar_params inp = arCanon inp.p)
    (Hma : ma_parmas inp = maCanon inp.q) {k : ℕ} (hk : k < inp.q) :
    (state_vars inp)[inp.p + k]? = some (maName (k + 1)) := by
  have hAlen : (ar_params inp).length = inp.p := by rw [Har, arCanon_length]
  have hMlen : (ma_parmas inp).length = inp.q := by rw [Hma, maCanon_length]
  unfold state_vars
  rw [List.append_assoc, List.getElem?_append_right (by rw [hAlen]; omega), hAlen,
    Nat.add_sub_cancel_left, List.getElem?_append, if_pos (by rw [hMlen]; exact hk),
    Hma, maCanon_getElem? hk]

lemma sv_exo_getElem? (inp : SetupInput) (Har : ar_params inp = arCanon inp.p)
    (Hma : ma_parmas inp = maCanon inp.q) (j : ℕ) :
    (state_vars inp)[inp.p + inp.q + j]? = (exo_params inp)[j]? := by
  have hAlen : (ar_params inp).length = inp.p := by rw [Har, arCanon_length]
  have hMlen : (ma_parmas inp).length = inp.q := by rw [Hma, maCanon_length]
  unfold state_vars
  rw [List.append_assoc, List.getElem?_append_right (by rw [hAlen]; omega), hAlen]
  have h1 : inp.p + inp.q + j - inp.p = inp.q + j := by omega
  rw [h1, List.getElem?_append_right (by rw [hMlen]; omega), hMlen,
    Nat.add_sub_cancel_left]

/-- A row built as a one-hot indicator over a duplicate-free name list is 1
exactly at the position of the target name. -/
lemma onehot_getElem? (sv : List String) (f : String → Bool) (nm : String)
    (j c : ℕ) (Hnd : sv.Nodup) (hj : sv[j]? = some nm)
    (hf : ∀ s, f s = true ↔ s = nm) (hc : c < sv.length) :
    (sv.map (fun item => if f item then (1 : ℚ) else 0))[c]?
      = some (if c = j then 1 else 0) := by
  rw [List.getElem?_map, List.getElem?_eq_getElem hc]
  by_cases hcj : c = j
  · subst hcj
    have hv : sv[c] = nm := by
      rw [List.getElem?_eq_getElem hc] at hj
      exact Option.some_injective _ hj
    simp [hf, hv]
  · have hne : sv[c] ≠ nm := by
      intro he
      exact hcj (List.getElem?_inj hc Hnd (by rw [List.getElem?_eq_getElem hc, he, hj]))
    have hfv : f sv[c] = false := by
      cases hfc : f sv[c]
      · rfl
      · exact absurd ((hf _).mp hfc) hne
    simp [hfv, hcj]

lemma Tmat_ar_row (inp : SetupInput) (k : ℕ) (h1 : 1 ≤ k) (h2 : k < inp.p) :
    (Tmat inp)[k]? = some ((state_vars inp).map
      (fun item => if item == arName k then (1 : ℚ) else 0)) := by
  have hp2 : 1 < inp.p := by omega
  obtain ⟨k', rfl⟩ : ∃ k', k = k' + 1 := ⟨k - 1, by omega⟩
  rw [Tmat_cons, List.getElem?_cons_succ, List.append_assoc, List.getElem?_append,
    if_pos (by rw [arT_block_length, arRowCnt_eq (by omega)]; omega), if_pos hp2]
  unfold arT
  rw [List.getElem?_map, List.getElem?_range' 1 1 (show k' < inp.p - 1 by omega)]
  have h : 1 + 1 * k' = k' + 1 := by omega
  rw [h]
  rfl

lemma Tmat_ma_row (inp : SetupInput) (k : ℕ) (h1 : 1 ≤ k) (h2 : k ≤ inp.q) :
    (Tmat inp)[arRowCnt inp + k]? = some ((state_vars inp).map
      (fun item => if item == maName k then (1 : ℚ) else 0)) := by
  have hq : 0 < inp.q := by omega
  obtain ⟨k', rfl⟩ : ∃ k', k = k' + 1 := ⟨k - 1, by omega⟩
  have hidx : arRowCnt inp + (k' + 1) = (arRowCnt inp + k') + 1 := by omega
  rw [Tmat_cons, hidx, List.getElem?_cons_succ, List.append_assoc,
    List.getElem?_append_right (by rw [arT_block_length]; omega),
    arT_block_length, Nat.add_sub_cancel_left, List.getElem?_append,
    if_pos (by rw [maT_block_length]; omega), if_pos hq]
  unfold maT
  rw [List.getElem?_map, List.getElem?_range' 1 1 (show k' < inp.q by omega)]
  have h : 1 + 1 * k' = k' + 1 := by omega
  rw [h]
  rfl

lemma Tmat_exo_row (inp : SetupInput) (j : ℕ) (hj : j < (exo_params inp).length)
    (Hd : (exo_params inp).length = inp.d) :
    ∃ nm, (exo_params inp)[j]? = some nm ∧
      (Tmat inp)[1 + arRowCnt inp + inp.q + j]? = some ((state_vars inp).map
        (fun name => if nm == name then (1 : ℚ) else 0)) := by
  have hd0 : 0 < inp.d := by omega
  obtain ⟨nm, hnm⟩ : ∃ nm, (exo_params inp)[j]? = some nm :=
    ⟨(exo_params inp)[j], List.getElem?_eq_getElem hj⟩
  refine ⟨nm, hnm, ?_⟩
  have hidx : 1 + arRowCnt inp + inp.q + j = (arRowCnt inp + inp.q + j) + 1 := by omega
  rw [Tmat_cons, hidx, List.getElem?_cons_succ, List.append_assoc,
    List.getElem?_append_right (by rw [arT_block_length]; omega),
    arT_block_length]
  have h1 : arRowCnt inp + inp.q + j - arRowCnt inp = inp.q + j := by omega
  rw [h1, List.getElem?_append_right (by rw [maT_block_length]; omega),
    maT_block_length, Nat.add_sub_cancel_left, if_pos hd0]
  unfold exoT
  rw [List.getElem?_map, hnm]
  rfl

/-- Claim C2 (amended): the appended AR rows do encode a shift — for
`1 ≤ k < p` the T row at index `k` (the row feeding the AR state of lag
`k + 1`) is one-hot at column `k - 1`, the column of AR lag `k` — but the
appended MA rows are identity rows, not shift rows: the `k`-th MA row
(`1 ≤ k ≤ q`, at row index `arRowCnt + k`, feeding the MA state of lag `k`)
has its single 1 at its own column `p + (k - 1)` (MA lag `k`), not at the
column of lag `k - 1`; and each exogenous row is one-hot on its own
exogenous column `p + q + j`. -/
theorem T_block_structure (inp : SetupInput)
    (Har : ar_params inp = arCanon inp.p)
    (Hma : ma_parmas inp = maCanon inp.q)
    (Hd : (exo_params inp).length = inp.d)
    (Hnd : (state_vars inp).Nodup) :
    (∀ k, 1 ≤ k → k < inp.p → ∃ row, (Tmat inp)[k]? = some row ∧
      ∀ c < (state_vars inp).length,
        row[c]? = some (if c = k - 1 then (1 : ℚ) else 0)) ∧
    (∀ k, 1 ≤ k → k ≤ inp.q → ∃ row, (Tmat inp)[arRowCnt inp + k]? = some row ∧
      ∀ c < (state_vars inp).length,
        row[c]? = some (if c = inp.p + (k - 1) then (1 : ℚ) else 0)) ∧
    (∀ j, j < (exo_params inp).length → ∃ row,
      (Tmat inp)[1 + arRowCnt inp + inp.q + j]? = some row ∧
      ∀ c < (state_vars inp).length,
        row[c]? = some (if c = inp.p + inp.q + j then (1 : ℚ) else 0)) := by
  refine ⟨?_, ?_, ?_⟩
  · intro k hk1 hk2
    refine ⟨_, Tmat_ar_row inp k hk1 hk2, ?_⟩
    intro c hc
    have hj : (state_vars inp)[k - 1]? = some (arName k) := by
      have := sv_ar_getElem? inp Har (show k - 1 < inp.p by omega)
      rwa [show k - 1 + 1 = k by omega] at this
    exact onehot_getElem? _ _ (arName k) (k - 1) c Hnd hj (fun s => beq_iff_eq) hc
  · intro k hk1 hk2
    refine ⟨_, Tmat_ma_row inp k hk1 hk2, ?_⟩
    intro c hc
    have hj : (state_vars inp)[inp.p + (k - 1)]? = some (maName k) := by
      have := sv_ma_getElem? inp Har Hma (show k - 1 < inp.q by omega)
      rwa [show k - 1 + 1 = k by omega] at this
    exact onehot_getElem? _ _ (maName k) (inp.p + (k - 1)) c Hnd hj
      (fun s => beq_iff_eq) hc
  · intro j hj
    obtain ⟨nm, hnm, hrow⟩ := Tmat_exo_row inp j hj Hd
    refine ⟨_, hrow, ?_⟩
    intro c hc
    have hjj : (state_vars inp)[inp.p + inp.q + j]? = some nm := by
      rw [sv_exo_getElem? inp Har Hma j, hnm]
    exact onehot_getElem? _ (fun name => nm == name) nm (inp.p + inp.q + j) c Hnd hjj
      (fun s => by rw [beq_iff_eq]; exact eq_comm) hc

/-- Counterexample to C2 as stated: at `cexC2inp` (valid input: the
construction assertions pass) the appended MA row feeding the lag-2 MA
state — T row index 2, since `p = 1` contributes no AR shift rows — is
`[0, 0, 1]`, one-hot at the lag-2 column itself (index 2), not the
`[0, 1, 0]` required by "single 1 in the column of lag k-1 within that same
group" (lag-1 column, index 1). -/
theorem T_ma_shift_refuted :
    (set_up_kalman_filter cexC2inp (fun _ => [])).isSome = true ∧
    (Tmat cexC2inp)[2]? = some [0, 0, 1] ∧
    ([0, 0, 1] : List ℚ) ≠ [0, 1, 0] := by
  refine ⟨by decide, by decide, by decide⟩

/-- Witness for (amended) C2 at the concrete input `wSet`. -/
theorem T_block_structure_witness :
    (∀ k, 1 ≤ k → k < wSet.p → ∃ row, (Tmat wSet)[k]? = some row ∧
      ∀ c < (state_vars wSet).length,
        row[c]? = some (if c = k - 1 then (1 : ℚ) else 0)) ∧
    (∀ k, 1 ≤ k → k ≤ wSet.q → ∃ row, (Tmat wSet)[arRowCnt wSet + k]? = some row ∧
      ∀ c < (state_vars wSet).length,
        row[c]? = some (if c = wSet.p + (k - 1) then (1 : ℚ) else 0)) ∧
    (∀ j, j < (exo_params wSet).length → ∃ row,
      (Tmat wSet)[1 + arRowCnt wSet + wSet.q + j]? = some row ∧
      ∀ c < (state_vars wSet).length,
        row[c]? = some (if c = wSet.p + wSet.q + j then (1 : ℚ) else 0)) :=
  T_block_structure wSet (by decide) (by decide) (by decide) (by decide)

lemma mem_ite_nil {c : Prop} [Decidable c] {X : List (List ℚ)} {row : List ℚ}
    (h : row ∈ (if c then X else [])) : row ∈ X := by
  split at h
  · exact h
  · simp at h

/-- Claim C6 (amended with `p ≥ 1`): under the naming convention and for
`p ≥ 1`, `T` is square of dimension `no_params = p + q + d`, row 0 is the
fitted coefficient vector in state-vector order, and every appended row has
exactly one nonzero entry, equal to 1.  (For `p = 0` the assertions still
pass but `T` gains an extra row and is not square; see the counterexample.) -/
theorem T_shape_row0 (inp : SetupInput)
    (Hp : 1 ≤ inp.p)
    (Har : ar_params inp = arCanon inp.p)
    (Hma : ma_parmas inp = maCanon inp.q)
    (Hd : (exo_params inp).length = inp.d)
    (Hnd : (state_vars inp).Nodup) :
    (Tmat inp).length = no_params inp ∧
    (∀ row ∈ Tmat inp, row.length = no_params inp) ∧
    (Tmat inp)[0]? = some ((state_vars inp).map inp.paramVal) ∧
    (∀ r, 1 ≤ r → r < no_params inp → ∃ row c, (Tmat inp)[r]? = some row ∧
      c < row.length ∧ row[c]? = some 1 ∧
      ∀ c2 < row.length, c2 ≠ c → row[c2]? = some 0) := by
  have hAlen : (ar_params inp).length = inp.p := by rw [Har, arCanon_length]
  have hMlen : (ma_parmas inp).length = inp.q := by rw [Hma, maCanon_length]
  have hsv : (state_vars inp).length = no_params inp := sv_length inp hAlen hMlen Hd
  have hnp : no_params inp = inp.p + inp.q + inp.d := rfl
  refine ⟨?_, ?_, ?_, ?_⟩
  · rw [Tmat_cons]
    simp only [List.length_cons, List.length_append, arT_block_length,
      maT_block_length, exoT_block_length inp Hd, arRowCnt_eq Hp, hnp]
    omega
  · intro row hrow
    rw [Tmat_cons] at hrow
    rcases List.mem_cons.mp hrow with h0 | hmem
    · subst h0
      unfold row0
      rw [List.length_map, dedupKeys_eq_self Hnd, hsv]
    · rcases List.mem_append.mp hmem with hab | hE
      · rcases List.mem_append.mp hab with hA | hM
        · rcases List.mem_map.mp (mem_ite_nil hA) with ⟨i, _, rfl⟩
          rw [List.length_map, hsv]
        · rcases List.mem_map.mp (mem_ite_nil hM) with ⟨i, _, rfl⟩
          rw [List.length_map, hsv]
      · rcases List.mem_map.mp (mem_ite_nil hE) with ⟨nm, _, rfl⟩
        rw [List.length_map, hsv]
  · rw [Tmat_cons, List.getElem?_cons_zero]
    unfold row0
    rw [dedupKeys_eq_self Hnd]
  · intro r hr1 hr2
    rw [hnp] at hr2
    by_cases hAr : r < inp.p
    · -- an AR shift row
      refine ⟨_, r - 1, Tmat_ar_row inp r hr1 hAr, ?_, ?_, ?_⟩
      · rw [List.length_map, hsv, hnp]; omega
      · have hj : (state_vars inp)[r - 1]? = some (arName r) := by
          have := sv_ar_getElem? inp Har (show r - 1 < inp.p by omega)
          rwa [show r - 1 + 1 = r by omega] at this
        have := onehot_getElem? (state_vars inp) _ (arName r) (r - 1) (r - 1) Hnd hj
          (fun s => beq_iff_eq) (by rw [hsv, hnp]; omega)
        simpa using this
      · intro c2 hc2 hne
        have hj : (state_vars inp)[r - 1]? = some (arName r) := by
          have := sv_ar_getElem? inp Har (show r - 1 < inp.p by omega)
          rwa [show r - 1 + 1 = r by omega] at this
        have := onehot_getElem? (state_vars inp) _ (arName r) (r - 1) c2 Hnd hj
          (fun s => beq_iff_eq) (by rw [List.length_map] at hc2; exact hc2)
        rw [if_neg hne] at this
        exact this
    · by_cases hMa : r < inp.p + inp.q
      · -- an MA identity row
        have hk1 : 1 ≤ r - inp.p + 1 := by omega
        have hk2 : r - inp.p + 1 ≤ inp.q := by omega
        have hrow := Tmat_ma_row inp (r - inp.p + 1) hk1 hk2
        rw [show arRowCnt inp + (r - inp.p + 1) = r by rw [arRowCnt_eq Hp]; omega]
          at hrow
        have hcol : inp.p + (r - inp.p + 1 - 1) = r := by omega
        refine ⟨_, r, hrow, ?_, ?_, ?_⟩
        · rw [List.length_map, hsv, hnp]; omega
        · have hj : (state_vars inp)[inp.p + (r - inp.p + 1 - 1)]?
              = some (maName (r - inp.p + 1)) := by
            have := sv_ma_getElem? inp Har Hma (show r - inp.p + 1 - 1 < inp.q by omega)
            rwa [show r - inp.p + 1 - 1 + 1 = r - inp.p + 1 by omega] at this
          rw [hcol] at hj
          have := onehot_getElem? (state_vars inp) _ (maName (r - inp.p + 1)) r r Hnd hj
            (fun s => beq_iff_eq) (by rw [hsv, hnp]; omega)
          simpa using this
        · intro c2 hc2 hne
          have hj : (state_vars inp)[inp.p + (r - inp.p + 1 - 1)]?
              = some (maName (r - inp.p + 1)) := by
            have := sv_ma_getElem? inp Har Hma (show r - inp.p + 1 - 1 < inp.q by omega)
            rwa [show r - inp.p + 1 - 1 + 1 = r - inp.p + 1 by omega] at this
          rw [hcol] at hj
          have := onehot_getElem? (state_vars inp) _ (maName (r - inp.p + 1)) r c2 Hnd hj
            (fun s => beq_iff_eq) (by rw [List.length_map] at hc2; exact hc2)
          rw [if_neg hne] at this
          exact this
      · -- an exogenous indicator row
        have hjlt : r - (inp.p + inp.q) < (exo_params inp).length := by
          rw [Hd]; omega
        obtain ⟨nm, hnm, hrow⟩ := Tmat_exo_row inp (r - (inp.p + inp.q)) hjlt Hd
        rw [show 1 + arRowCnt inp + inp.q + (r - (inp.p + inp.q)) = r by
          rw [arRowCnt_eq Hp]; omega] at hrow
        have hcol : inp.p + inp.q + (r - (inp.p + inp.q)) = r := by omega
        refine ⟨_, r, hrow, ?_, ?_, ?_⟩
        · rw [List.length_map, hsv, hnp]; omega
        · have hj : (state_vars inp)[r]? = some nm := by
            rw [← hcol, sv_exo_getElem? inp Har Hma, hnm]
          have := onehot_getElem? (state_vars inp) (fun name => nm == name) nm r r Hnd hj
            (fun s => by rw [beq_iff_eq]; exact eq_comm) (by rw [hsv, hnp]; omega)
          simpa using this
        · intro c2 hc2 hne
          have hj : (state_vars inp)[r]? = some nm := by
            rw [← hcol, sv_exo_getElem? inp Har Hma, hnm]
          have := onehot_getElem? (state_vars inp) (fun name => nm == name) nm r c2 Hnd hj
            (fun s => by rw [beq_iff_eq]; exact eq_comm) (by rw [List.length_map] at hc2; exact hc2)
          rw [if_neg hne] at this
          exact this

/-- Counterexample to C6 as stated: at `cexC6inp` (`p = 0`, `q = 1`,
`d = 0`) all construction assertions pass, yet `T` has 2 rows while
`no_params = 1`: the matrix is not square of dimension `no_params`. -/
theorem T_not_square_refuted :
    (set_up_kalman_filter cexC6inp (fun _ => [])).isSome = true ∧
    (Tmat cexC6inp).length = 2 ∧ no_params cexC6inp = 1 := by
  refine ⟨by decide, by decide, rfl⟩

/-- Witness for (amended) C6 at the concrete input `wSet`. -/
theorem T_shape_row0_witness :
    (Tmat wSet).length = no_params wSet ∧
    (∀ row ∈ Tmat wSet, row.length = no_params wSet) ∧
    (Tmat wSet)[0]? = some ((state_vars wSet).map wSet.paramVal) ∧
    (∀ r, 1 ≤ r → r < no_params wSet → ∃ row c, (Tmat wSet)[r]? = some row ∧
      c < row.length ∧ row[c]? = some 1 ∧
      ∀ c2 < row.length, c2 ≠ c → row[c2]? = some 0) :=
  T_shape_row0 wSet (by decide) (by decide) (by decide) (by decide) (by decide)

/-- Witness for C8 at the concrete input `wSet`. -/
theorem zs_construction_witness :
    (zsOf wSet).length = (dfRows wSet).length ∧
    (∀ row ∈ zsOf wSet, row.length = no_params wSet) ∧
    (∀ row ∈ zsOf wSet, ∀ c : ℕ,
      (ma_bool_mask (state_vars wSet))[c]? = some true → row[c]? = some 0) :=
  zs_construction wSet (by decide) (by decide) (by decide) (by decide) (by decide)

/-! ### Lemmas about the filtering loop -/

lemma ma_lag_mask_length (sv : List String) (ix : ℕ) :
    (ma_lag_mask sv ix).length = sv.length := by
  simp [ma_lag_mask]

lemma ma_bool_mask_length (sv : List String) :
    (ma_bool_mask sv).length = sv.length := by
  simp [ma_bool_mask]

lemma writeRow_spec {zs : List (List ℚ)} {idx : ℕ} {mask : List Bool} {v : ℚ}
    {zs2 : List (List ℚ)} (h : writeRow zs idx mask v = some zs2) :
    ∃ row, zs[idx]? = some row ∧ mask.length = row.length ∧
      zs2 = zs.set idx (maskWrite mask v row) := by
  unfold writeRow at h
  split at h
  · cases h
  · rename_i row hz
    split_ifs at h with hlen
    cases h
    exact ⟨row, hz, hlen, rfl⟩

lemma injectLoop_length {sv : List String} {i : ℕ} {v : ℚ} :
    ∀ {L : List ℕ} {zs zs2 : List (List ℚ)},
      injectLoop sv i v L zs = some zs2 → zs2.length = zs.length := by
  intro L
  induction L with
  | nil =>
    intro zs zs2 h
    cases h
    rfl
  | cons iz rest ih =>
    intro zs zs2 h
    unfold injectLoop at h
    cases hw : writeRow zs (i + iz + 1) (ma_lag_mask sv (iz + 1)) v with
    | none => rw [hw] at h; cases h
    | some zs1 =>
      rw [hw] at h
      obtain ⟨row, _, _, hset⟩ := writeRow_spec hw
      rw [ih h, hset, List.length_set]

lemma injectLoop_untouched {sv : List String} {i : ℕ} {v : ℚ} :
    ∀ {L : List ℕ} {zs zs2 : List (List ℚ)},
      injectLoop sv i v L zs = some zs2 →
      ∀ (r c : ℕ), (∀ iz ∈ L, r = i + iz + 1 → ¬ (ma_lag_mask sv (iz + 1))[c]? = some true) →
      (zs2[r]?.bind (fun row => row[c]?)) = (zs[r]?.bind (fun row => row[c]?)) := by
  intro L
  induction L with
  | nil =>
    intro zs zs2 h r c _
    cases h
    rfl
  | cons iz rest ih =>
    intro zs zs2 h r c hr
    unfold injectLoop at h
    cases hw : writeRow zs (i + iz + 1) (ma_lag_mask sv (iz + 1)) v with
    | none => rw [hw] at h; cases h
    | some zs1 =>
      rw [hw] at h
      obtain ⟨row, hrow, hlen, hset⟩ := writeRow_spec hw
      have hstep : (zs1[r]?.bind (fun row => row[c]?))
          = (zs[r]?.bind (fun row => row[c]?)) := by
        subst hset
        by_cases hri : i + iz + 1 = r
        · subst hri
          have hidx : i + iz + 1 < zs.length := (List.getElem?_eq_some_iff.mp hrow).1
          rw [List.getElem?_set, if_pos rfl, if_pos hidx, hrow]
          simp only [Option.some_bind]
          cases hm : (ma_lag_mask sv (iz + 1))[c]? with
          | none =>
            rw [maskWrite_getElem?_none hm]
            have hcge : row.length ≤ c := by
              have := List.getElem?_eq_none_iff.mp hm
              rw [ma_lag_mask_length] at this
              rw [← hlen, ma_lag_mask_length]
              exact this
            rw [List.getElem?_eq_none hcge]
          | some b =>
            cases b with
            | false => rw [maskWrite_getElem?_false hm]
            | true =>
              exact absurd hm (hr iz (by simp) rfl)
        · rw [List.getElem?_set, if_neg hri]
      rw [← hstep]
      exact ih h r c (fun iz2 hiz2 => hr iz2 (by simp [hiz2]))

lemma injectLoop_writes {sv : List String} {i : ℕ} {v : ℚ} :
    ∀ {L : List ℕ} {zs zs2 : List (List ℚ)}, L.Nodup →
      injectLoop sv i v L zs = some zs2 →
      ∀ iz ∈ L, ∀ (c : ℕ), (ma_lag_mask sv (iz + 1))[c]? = some true →
      (zs2[i + iz + 1]?.bind (fun row => row[c]?)) = some v := by
  intro L
  induction L with
  | nil => intro zs zs2 _ _ iz hiz; simp at hiz
  | cons iz0 rest ih =>
    intro zs zs2 hnd h iz hiz c hc
    unfold injectLoop at h
    cases hw : writeRow zs (i + iz0 + 1) (ma_lag_mask sv (iz0 + 1)) v with
    | none => rw [hw] at h; cases h
    | some zs1 =>
      rw [hw] at h
      obtain ⟨row, hrow, hlen, hset⟩ := writeRow_spec hw
      rcases List.mem_cons.mp hiz with rfl | hizr
      · -- the write of this iteration persists through the rest of the loop
        have hpres := injectLoop_untouched h (i + iz + 1) c ?_
        · rw [hpres, hset]
          have hidx : i + iz + 1 < zs.length := (List.getElem?_eq_some_iff.mp hrow).1
          rw [List.getElem?_set, if_pos rfl, if_pos hidx]
          simp only [Option.some_bind]
          have hcrow : c < row.length := by
            rw [← hlen, ma_lag_mask_length]
            have := (List.getElem?_eq_some_iff.mp hc).1
            rwa [ma_lag_mask_length] at this
          exact maskWrite_getElem?_true hc hcrow
        · intro iz2 hiz2 heq
          have : iz2 = iz := by omega
          subst this
          exact absurd hiz2 (List.nodup_cons.mp hnd).1
      · exact ih (List.nodup_cons.mp hnd).2 h iz hizr c hc

lemma maskSelect_ne_nil {mask : List Bool} {row : List ℚ} {j : ℕ}
    (hj : mask[j]? = some true) (hl : mask.length = row.length) :
    maskSelect mask row ≠ [] := by
  intro hnil
  have hjlt : j < mask.length := (List.getElem?_eq_some_iff.mp hj).1
  have hjr : j < row.length := hl ▸ hjlt
  have hzip : (List.zip mask row)[j]? = some (true, row[j]) := by
    show (List.zipWith Prod.mk mask row)[j]? = some (true, row[j])
    rw [List.getElem?_zipWith, hj, List.getElem?_eq_getElem hjr]
  have hmem : (true, row[j]) ∈ List.zip mask row := by
    rcases List.getElem?_eq_some_iff.mp hzip with ⟨hlt, heq⟩
    exact heq ▸ List.getElem_mem hlt
  have := (List.filterMap_eq_nil_iff.mp hnil) _ hmem
  simp at this

lemma maInject_spec {q : ℕ} {sv : List String} {m i : ℕ} {xv : List ℚ}
    {zs : List (List ℚ)} {out : List (List ℚ) × Option ℚ}
    (h : maInject q sv m i xv zs = some out) :
    out.1.length = zs.length ∧
    ((out.1 = zs ∧ out.2 = none ∧ (q = 0 ∨ ¬ (i + (q - 1) + 1 < m))) ∨
     (∃ v, out.2 = some v ∧ 0 < q ∧ i + (q - 1) + 1 < m ∧
        injectLoop sv i v (List.range q) zs = some out.1)) := by
  unfold maInject at h
  by_cases hq : 0 < q
  · rw [if_pos hq] at h
    by_cases hg : i + (q - 1) + 1 < m
    · rw [if_pos hg] at h
      split at h
      · cases h
      · rename_i row hz
        split_ifs at h with hlen
        split at h
        · cases h
        · rename_i r0 hh
          split at h
          · cases h
          · rename_i xh hx
            split at h
            · cases h
            · rename_i zs2 hil
              cases h
              exact ⟨injectLoop_length hil, Or.inr ⟨r0 - xh, rfl, hq, hg, hil⟩⟩
    · rw [if_neg hg] at h
      cases h
      exact ⟨rfl, Or.inl ⟨rfl, rfl, Or.inr hg⟩⟩
  · rw [if_neg hq] at h
    cases h
    exact ⟨rfl, Or.inl ⟨rfl, rfl, Or.inl (by omega)⟩⟩

lemma writeRow_eq {zs : List (List ℚ)} {idx : ℕ} {mask : List Bool} {row : List ℚ}
    (hrow : zs[idx]? = some row) (hlen : mask.length = row.length) (v : ℚ) :
    writeRow zs idx mask v = some (zs.set idx (maskWrite mask v row)) := by
  unfold writeRow
  rw [hrow]
  show (if mask.length = row.length then some (zs.set idx (maskWrite mask v row))
    else none) = some (zs.set idx (maskWrite mask v row))
  rw [if_pos hlen]

lemma injectLoop_total {sv : List String} {i : ℕ} {v : ℚ} {m : ℕ} :
    ∀ (L : List ℕ) (zs : List (List ℚ)), zs.length = m →
      (∀ r ∈ zs, r.length = sv.length) →
      (∀ iz ∈ L, i + iz + 1 < m) →
      ∃ zs2, injectLoop sv i v L zs = some zs2 ∧ zs2.length = m ∧
        (∀ r ∈ zs2, r.length = sv.length) := by
  intro L
  induction L with
  | nil => intro zs hlen hrows _; exact ⟨zs, rfl, hlen, hrows⟩
  | cons iz rest ih =>
    intro zs hlen hrows hidx
    have hlt : i + iz + 1 < zs.length := by rw [hlen]; exact hidx iz (by simp)
    have hrow : zs[i + iz + 1]? = some zs[i + iz + 1] := List.getElem?_eq_getElem hlt
    have hrlen : (zs[i + iz + 1]).length = sv.length := hrows _ (List.getElem_mem hlt)
    have hw : writeRow zs (i + iz + 1) (ma_lag_mask sv (iz + 1)) v
        = some (zs.set (i + iz + 1)
            (maskWrite (ma_lag_mask sv (iz + 1)) v zs[i + iz + 1])) :=
      writeRow_eq hrow (by rw [ma_lag_mask_length, hrlen]) v
    obtain ⟨zs2, h2, hlen2, hrows2⟩ := ih
      (zs.set (i + iz + 1) (maskWrite (ma_lag_mask sv (iz + 1)) v zs[i + iz + 1]))
      (by rw [List.length_set, hlen])
      (by
        intro r hr
        rcases List.mem_or_eq_of_mem_set hr with hr2 | rfl
        · exact hrows r hr2
        · unfold maskWrite
          rw [List.length_zipWith, ma_lag_mask_length, hrlen, min_self])
      (fun iz2 hiz2 => hidx iz2 (by simp [hiz2]))
    refine ⟨zs2, ?_, hlen2, hrows2⟩
    unfold injectLoop
    rw [hw]
    exact h2

lemma maInject_total {q : ℕ} {sv : List String} {m i : ℕ} {xv : List ℚ}
    {zs : List (List ℚ)}
    (hlen : zs.length = m)
    (hrows : ∀ r ∈ zs, r.length = sv.length)
    (hmask : 0 < q → ∃ j : ℕ, (ma_bool_mask sv)[j]? = some true)
    (hx : xv ≠ []) :
    ∃ out, maInject q sv m i xv zs = some out ∧ out.1.length = m ∧
      (∀ r ∈ out.1, r.length = sv.length) := by
  by_cases hq : 0 < q
  · by_cases hg : i + (q - 1) + 1 < m
    · have hi1 : i + 1 < zs.length := by rw [hlen]; omega
      have hrow : zs[i + 1]? = some zs[i + 1] := List.getElem?_eq_getElem hi1
      have hrlen : (zs[i + 1]).length = sv.length := hrows _ (List.getElem_mem hi1)
      have hmlen : (ma_bool_mask sv).length = (zs[i + 1]).length := by
        rw [ma_bool_mask_length, hrlen]
      obtain ⟨j, hj⟩ := hmask hq
      have hsel : maskSelect (ma_bool_mask sv) zs[i + 1] ≠ [] :=
        maskSelect_ne_nil hj hmlen
      obtain ⟨r0, hr0⟩ : ∃ r0, (maskSelect (ma_bool_mask sv) zs[i + 1]).head? = some r0 := by
        cases hsl : maskSelect (ma_bool_mask sv) zs[i + 1] with
        | nil => exact absurd hsl hsel
        | cons a l => exact ⟨a, rfl⟩
      obtain ⟨xh, xrest, rfl⟩ : ∃ xh xrest, xv = xh :: xrest := by
        cases xv with
        | nil => exact absurd rfl hx
        | cons a l => exact ⟨a, l, rfl⟩
      obtain ⟨zs2, hil, hlen2, hrows2⟩ := injectLoop_total (i := i) (v := r0 - xh)
        (List.range q) zs hlen hrows
        (by
          intro iz hiz
          have hiq : iz < q := List.mem_range.mp hiz
          omega)
      refine ⟨(zs2, some (r0 - xh)), ?_, hlen2, hrows2⟩
      simp [maInject, hq, hg, hrow, hmlen, hr0, hil]
    · refine ⟨(zs, none), ?_, hlen, hrows⟩
      unfold maInject
      rw [if_pos hq, if_neg hg]
  · refine ⟨(zs, none), ?_, hlen, hrows⟩
    unfold maInject
    rw [if_neg hq]

lemma zAdvance_spec {m i : ℕ} {zs : List (List ℚ)} {z : List ℚ} {zi : ℕ}
    {out : List ℚ × ℕ} (h : zAdvance m i zs z zi = some out) :
    out.2 = (if i + 1 < m then i + 2 else zi) := by
  unfold zAdvance at h
  by_cases hlt : i + 1 < m
  · rw [if_pos hlt] at h
    cases hz : zs[i + 1]? with
    | none => rw [hz] at h; cases h
    | some r =>
      rw [hz] at h
      cases h
      simp [hlt]
  · rw [if_neg hlt] at h
    cases h
    simp [hlt]

lemma zAdvance_total {m : ℕ} (i : ℕ) {zs : List (List ℚ)} (z : List ℚ) (zi : ℕ)
    (hlen : zs.length = m) :
    ∃ out, zAdvance m i zs z zi = some out := by
  unfold zAdvance
  by_cases hlt : i + 1 < m
  · rw [if_pos hlt, List.getElem?_eq_getElem (by rw [hlen]; exact hlt)]
    exact ⟨_, rfl⟩
  · rw [if_neg hlt]
    exact ⟨_, rfl⟩

lemma kfStep_spec {pr : KFState → KFState} {up : KFState → List ℚ → KFState}
    {q : ℕ} {sv : List String} {m i : ℕ} {st st2 : LoopSt}
    (h : kfStep pr up q sv m i st = some st2) :
    ∃ ores, maInject q sv m i (up (pr st.kf) st.z).x st.zs = some (st2.zs, ores) ∧
      st2.resTrace = st.resTrace
        ++ (match ores with | some v => [(i, v)] | none => []) ∧
      st2.kf = up (pr st.kf) st.z ∧
      st2.xOut = st.xOut ++ [(up (pr st.kf) st.z).x] ∧
      st2.pOut = st.pOut ++ [(up (pr st.kf) st.z).P] ∧
      st2.xPred = st.xPred ++ [(pr st.kf).x] ∧
      st2.pPred = st.pPred ++ [(pr st.kf).P] ∧
      st2.llOut = st.llOut ++ [(up (pr st.kf) st.z).ll] ∧
      st2.updTrace = st.updTrace ++ [st.zi] ∧
      st2.zi = (if i + 1 < m then i + 2 else st.zi) := by
  simp only [kfStep] at h
  cases hInj : maInject q sv m i (up (pr st.kf) st.z).x st.zs with
  | none => rw [hInj] at h; cases h
  | some zr =>
    rw [hInj] at h
    simp only [] at h
    cases hAdv : zAdvance m i zr.1 st.z st.zi with
    | none => rw [hAdv] at h; cases h
    | some zz =>
      rw [hAdv] at h
      simp only [] at h
      cases h
      refine ⟨zr.2, ?_, rfl, rfl, rfl, rfl, rfl, rfl, rfl, rfl, zAdvance_spec hAdv⟩
      show some zr = some (zr.1, zr.2)
      rfl

lemma kfStep_total {pr : KFState → KFState} {up : KFState → List ℚ → KFState}
    {q : ℕ} {sv : List String} {m i : ℕ} {st : LoopSt}
    (hmask : 0 < q → ∃ j : ℕ, (ma_bool_mask sv)[j]? = some true)
    (hx : ∀ s z2, (up s z2).x ≠ [])
    (hlen : st.zs.length = m)
    (hrows : ∀ r ∈ st.zs, r.length = sv.length) :
    ∃ st2, kfStep pr up q sv m i st = some st2 ∧ st2.zs.length = m ∧
      (∀ r ∈ st2.zs, r.length = sv.length) := by
  obtain ⟨out, hout, holen, horows⟩ :=
    maInject_total (i := i) hlen hrows hmask (hx (pr st.kf) st.z)
  obtain ⟨zz, hzz⟩ := zAdvance_total i st.z st.zi holen
  have hstep : kfStep pr up q sv m i st = some
      { kf := up (pr st.kf) st.z
        zs := out.1
        z := zz.1
        zi := zz.2
        xOut := st.xOut ++ [(up (pr st.kf) st.z).x]
        pOut := st.pOut ++ [(up (pr st.kf) st.z).P]
        xPred := st.xPred ++ [(pr st.kf).x]
        pPred := st.pPred ++ [(pr st.kf).P]
        llOut := st.llOut ++ [(up (pr st.kf) st.z).ll]
        updTrace := st.updTrace ++ [st.zi]
        resTrace := st.resTrace
          ++ (match out.2 with | some v => [(i, v)] | none => []) } := by
    simp only [kfStep, hout, hzz]
  exact ⟨_, hstep, holen, horows⟩

lemma kfLoop_counts {pr : KFState → KFState} {up : KFState → List ℚ → KFState}
    {q : ℕ} {sv : List String} {m : ℕ} :
    ∀ (n i : ℕ) (st st2 : LoopSt), kfLoop pr up q sv m i n st = some st2 →
      st2.xOut.length = st.xOut.length + n ∧
      st2.pOut.length = st.pOut.length + n ∧
      st2.llOut.length = st.llOut.length + n ∧
      st2.xPred.length = st.xPred.length + n ∧
      st2.pPred.length = st.pPred.length + n ∧
      st2.updTrace.length = st.updTrace.length + n := by
  intro n
  induction n with
  | zero =>
    intro i st st2 h
    simp only [kfLoop] at h
    cases h
    simp
  | succ n ih =>
    intro i st st2 h
    simp only [kfLoop] at h
    split at h
    · cases h
    · rename_i st3 hstep
      obtain ⟨ores, hInj, hres, hkf, hxOut, hpOut, hxPred, hpPred, hll, hupd, hzi⟩ :=
        kfStep_spec hstep
      obtain ⟨h1, h2, h3, h4, h5, h6⟩ := ih (i + 1) st3 st2 h
      refine ⟨?_, ?_, ?_, ?_, ?_, ?_⟩
      · rw [h1, hxOut]; simp only [List.length_append, List.length_singleton]; omega
      · rw [h2, hpOut]; simp only [List.length_append, List.length_singleton]; omega
      · rw [h3, hll]; simp only [List.length_append, List.length_singleton]; omega
      · rw [h4, hxPred]; simp only [List.length_append, List.length_singleton]; omega
      · rw [h5, hpPred]; simp only [List.length_append, List.length_singleton]; omega
      · rw [h6, hupd]; simp only [List.length_append, List.length_singleton]; omega

lemma traceSeg_succ (m i n v : ℕ) :
    traceSeg m i (n + 1) v = v :: traceSeg m (i + 1) n (if i + 1 < m then i + 2 else v) :=
  rfl

lemma kfLoop_trace {pr : KFState → KFState} {up : KFState → List ℚ → KFState}
    {q : ℕ} {sv : List String} {m : ℕ} :
    ∀ (n i : ℕ) (st st2 : LoopSt), kfLoop pr up q sv m i n st = some st2 →
      st2.updTrace = st.updTrace ++ traceSeg m i n st.zi := by
  intro n
  induction n with
  | zero =>
    intro i st st2 h
    simp only [kfLoop] at h
    cases h
    simp [traceSeg]
  | succ n ih =>
    intro i st st2 h
    simp only [kfLoop] at h
    split at h
    · cases h
    · rename_i st3 hstep
      obtain ⟨ores, hInj, hres, hkf, hxOut, hpOut, hxPred, hpPred, hll, hupd, hzi⟩ :=
        kfStep_spec hstep
      rw [ih (i + 1) st3 st2 h, hupd, hzi, traceSeg_succ]
      simp

lemma kfLoop_q0 {pr : KFState → KFState} {up : KFState → List ℚ → KFState}
    {sv : List String} {m : ℕ} :
    ∀ (n i : ℕ) (st st2 : LoopSt), kfLoop pr up 0 sv m i n st = some st2 →
      st2.zs = st.zs ∧ st2.resTrace = st.resTrace := by
  intro n
  induction n with
  | zero =>
    intro i st st2 h
    simp only [kfLoop] at h
    cases h
    exact ⟨rfl, rfl⟩
  | succ n ih =>
    intro i st st2 h
    simp only [kfLoop] at h
    split at h
    · cases h
    · rename_i st3 hstep
      obtain ⟨ores, hInj, hres, hkf, hxOut, hpOut, hxPred, hpPred, hll, hupd, hzi⟩ :=
        kfStep_spec hstep
      have hInj0 : maInject 0 sv m i (up (pr st.kf) st.z).x st.zs = some (st.zs, none) := by
        simp [maInject]
      rw [hInj0] at hInj
      have hzs3 : st3.zs = st.zs := by
        have := (Option.some_injective _ hInj)
        exact (congrArg Prod.fst this).symm
      have hores : ores = none := by
        have := (Option.some_injective _ hInj)
        exact (congrArg Prod.snd this).symm
      have hres3 : st3.resTrace = st.resTrace := by
        rw [hres, hores]
        exact List.append_nil _
      obtain ⟨ha, hb⟩ := ih (i + 1) st3 st2 h
      exact ⟨ha.trans hzs3, hb.trans hres3⟩

lemma kfLoop_total (pr : KFState → KFState) (up : KFState → List ℚ → KFState)
    {q : ℕ} {sv : List String} {m : ℕ}
    (hmask : 0 < q → ∃ j : ℕ, (ma_bool_mask sv)[j]? = some true)
    (hx : ∀ s z2, (up s z2).x ≠ []) :
    ∀ (n i : ℕ) (st : LoopSt), st.zs.length = m →
      (∀ r ∈ st.zs, r.length = sv.length) →
      ∃ st2, kfLoop pr up q sv m i n st = some st2 := by
  intro n
  induction n with
  | zero => intro i st _ _; exact ⟨st, rfl⟩
  | succ n ih =>
    intro i st hlen hrows
    obtain ⟨st3, hstep, hlen3, hrows3⟩ := kfStep_total hmask hx hlen hrows
    obtain ⟨st2, h2⟩ := ih (i + 1) st3 hlen3 hrows3
    refine ⟨st2, ?_⟩
    simp only [kfLoop]
    rw [hstep]
    exact h2

lemma kfLoop_inject {pr : KFState → KFState} {up : KFState → List ℚ → KFState}
    {q : ℕ} {sv : List String} {m : ℕ}
    (Hdisj : ∀ (a b c : ℕ), a < q → b < q →
      (ma_lag_mask sv (a + 1))[c]? = some true →
      (ma_lag_mask sv (b + 1))[c]? = some true → a = b) :
    ∀ (n i : ℕ) (st st2 : LoopSt), kfLoop pr up q sv m i n st = some st2 →
    (∀ j v, (j, v) ∈ st.resTrace → j < i ∧ 0 < q ∧ j + (q - 1) + 1 < m) →
    (∀ j v, (j, v) ∈ st.resTrace → ∀ (iz : ℕ), iz < q → ∀ (c : ℕ),
      (ma_lag_mask sv (iz + 1))[c]? = some true →
      (st.zs[j + iz + 1]?.bind (fun row => row[c]?)) = some v) →
    (∀ j, j < i → 0 < q → j + (q - 1) + 1 < m → ∃ v, (j, v) ∈ st.resTrace) →
    ((∀ j v, (j, v) ∈ st2.resTrace → ∀ (iz : ℕ), iz < q → ∀ (c : ℕ),
      (ma_lag_mask sv (iz + 1))[c]? = some true →
      (st2.zs[j + iz + 1]?.bind (fun row => row[c]?)) = some v) ∧
     (∀ j, j < i + n → 0 < q → j + (q - 1) + 1 < m → ∃ v, (j, v) ∈ st2.resTrace)) := by
  intro n
  induction n with
  | zero =>
    intro i st st2 h hP0 hP1 hPex
    simp only [kfLoop] at h
    cases h
    exact ⟨hP1, fun j hj => hPex j (by omega)⟩
  | succ n ih =>
    intro i st st2 h hP0 hP1 hPex
    simp only [kfLoop] at h
    split at h
    · cases h
    · rename_i st3 hstep
      obtain ⟨ores, hInj, hres, hkf, hxOut, hpOut, hxPred, hpPred, hll, hupd, hzi⟩ :=
        kfStep_spec hstep
      obtain ⟨hzlen, hcases⟩ := maInject_spec hInj
      rcases hcases with ⟨hzs_eq, hores, hskip⟩ | ⟨v, hov, hq, hguard, hil⟩
      · -- injection skipped: tensor and trace unchanged
        have hores2 : ores = none := hores
        have hres3 : st3.resTrace = st.resTrace := by
          rw [hres, hores2]
          exact List.append_nil _
        have hzs3 : st3.zs = st.zs := hzs_eq
        have := ih (i + 1) st3 st2 h
          (by
            intro j v hjv
            rw [hres3] at hjv
            obtain ⟨hj, hq2, hg2⟩ := hP0 j v hjv
            exact ⟨by omega, hq2, hg2⟩)
          (by
            intro j v hjv iz hiz c hc
            rw [hres3] at hjv
            rw [hzs3]
            exact hP1 j v hjv iz hiz c hc)
          (by
            intro j hj hq2 hg2
            rw [hres3]
            rcases Nat.lt_or_ge j i with hji | hji
            · exact hPex j hji hq2 hg2
            · have hji2 : j = i := by omega
              subst hji2
              rcases hskip with h0 | hng
              · omega
              · exact absurd hg2 hng)
        obtain ⟨hA, hB⟩ := this
        exact ⟨hA, fun j hj => hB j (by omega)⟩
      · -- injection performed at step i
        have hov2 : ores = some v := hov
        have hil2 : injectLoop sv i v (List.range q) st.zs = some st3.zs := hil
        have hres3 : st3.resTrace = st.resTrace ++ [(i, v)] := by
          rw [hres, hov2]
        have := ih (i + 1) st3 st2 h
          (by
            intro j u hju
            rw [hres3] at hju
            rcases List.mem_append.mp hju with hold | hnew
            · obtain ⟨hj, hq2, hg2⟩ := hP0 j u hold
              exact ⟨by omega, hq2, hg2⟩
            · have : j = i ∧ u = v := by
                have h2 := List.mem_singleton.mp hnew
                exact ⟨congrArg Prod.fst h2, congrArg Prod.snd h2⟩
              exact ⟨by omega, hq, this.1 ▸ hguard⟩)
          (by
            intro j u hju iz hiz c hc
            rw [hres3] at hju
            rcases List.mem_append.mp hju with hold | hnew
            · -- old entries' slots are disjoint from this step's writes
              obtain ⟨hj, _, _⟩ := hP0 j u hold
              have hunt := injectLoop_untouched hil2 (j + iz + 1) c ?_
              · rw [hunt]
                exact hP1 j u hold iz hiz c hc
              · intro iz2 hiz2 heq hmask2
                have hiz2q : iz2 < q := List.mem_range.mp hiz2
                have : iz = iz2 := Hdisj iz iz2 c hiz hiz2q hc hmask2
                omega
            · have hji : j = i ∧ u = v := by
                have h2 := List.mem_singleton.mp hnew
                exact ⟨congrArg Prod.fst h2, congrArg Prod.snd h2⟩
              obtain ⟨hji1, hji2⟩ := hji
              subst hji1
              rw [hji2]
              exact injectLoop_writes (List.nodup_range q) hil2 iz
                (List.mem_range.mpr hiz) c hc)
          (by
            intro j hj hq2 hg2
            rw [hres3]
            rcases Nat.lt_or_ge j i with hji | hji
            · obtain ⟨u, hu⟩ := hPex j hji hq2 hg2
              exact ⟨u, List.mem_append.mpr (Or.inl hu)⟩
            · have hji2 : j = i := by omega
              subst hji2
              exact ⟨v, List.mem_append.mpr (Or.inr (by simp))⟩)
        obtain ⟨hA, hB⟩ := this
        exact ⟨hA, fun j hj => hB j (by omega)⟩

/-- The initial loop state of a run on `z0 :: rest`. -/
def st0 (x0 : KFState) (z0 : List ℚ) (rest : List (List ℚ)) : LoopSt :=
  { kf := x0, zs := rest, z := z0, zi := 0, xOut := [], pOut := [],
    xPred := [], pPred := [], llOut := [], updTrace := [], resTrace := [] }

lemma kalman_filter_some {pr : KFState → KFState} {up : KFState → List ℚ → KFState}
    {q : ℕ} {sv : List String} {x0 : KFState} {z0 : List ℚ}
    {rest : List (List ℚ)} {res : KFResult}
    (h : kalman_filter pr up q sv x0 (z0 :: rest) = some res) :
    ∃ st, kfLoop pr up q sv rest.length 0 (rest.length + 1) (st0 x0 z0 rest)
        = some st ∧
      res.xOut = st.xOut ∧ res.pOut = st.pOut ∧
      res.xPred = st.xPred ++ [(pr st.kf).x] ∧
      res.pPred = st.pPred ++ [(pr st.kf).P] ∧
      res.llOut = st.llOut ∧ res.zsFinal = st.zs ∧
      res.updTrace = st.updTrace ∧ res.resTrace = st.resTrace := by
  simp only [kalman_filter] at h
  split at h
  · cases h
  · rename_i st hL
    cases h
    exact ⟨st, hL, rfl, rfl, rfl, rfl, rfl, rfl, rfl, rfl⟩

lemma traceSeg_closed (m : ℕ) :
    ∀ (n i : ℕ), 1 ≤ i → i ≤ m → i + n = m + 1 →
      traceSeg m i n (min (i + 1) m) = List.range' (i + 1) (m - i) ++ [m] := by
  intro n
  induction n with
  | zero => intro i h1 h2 h3; omega
  | succ n ih =>
    intro i h1 h2 h3
    rcases Nat.lt_or_ge i m with him | him
    · have hmin : min (i + 1) m = i + 1 := by omega
      rw [hmin, traceSeg_succ]
      have harg : (if i + 1 < m then i + 2 else i + 1) = min (i + 1 + 1) m := by
        split <;> omega
      rw [harg, ih (i + 1) (by omega) (by omega) (by omega)]
      rw [show m - i = (m - (i + 1)) + 1 by omega, List.range'_succ]
      simp
    · have hieq : i = m := by omega
      subst hieq
      have hn : n = 0 := by omega
      subst hn
      rw [show min (i + 1) i = i by omega, traceSeg_succ, if_neg (by omega),
        Nat.sub_self]
      rfl

lemma traceSeg_full {m : ℕ} (hm : 2 ≤ m) :
    traceSeg m 0 (m + 1) 0 = 0 :: (List.range' 2 (m - 1) ++ [m]) := by
  have h1 : traceSeg m 0 (m + 1) 0 = 0 :: traceSeg m 1 m 2 := by
    rw [traceSeg_succ, if_pos (by omega)]
  rw [h1]
  have h2 := traceSeg_closed m m 1 (by omega) (by omega) (by omega)
  rw [show min 2 m = 2 by omega] at h2
  rw [h2]

/-! ### The filter-loop claim theorems -/

/-- Claim C4: for every completed run over a non-empty observation tensor,
the filtered means, filtered covariances and per-step log-likelihood arrays
have one entry per row of the input tensor (the loop runs
`len(zs[1:]) + 1 = len(zs)` times), while the predicted means/covariances
have one extra entry from the final predict performed after the last
observation with no update (src/filter.py lines 141-144). -/
theorem output_lengths (pr : KFState → KFState) (up : KFState → List ℚ → KFState)
    (q : ℕ) (sv : List String) (x0 : KFState) (zs : List (List ℚ)) (res : KFResult)
    (Hrun : kalman_filter pr up q sv x0 zs = some res) :
    res.xOut.length = zs.length ∧ res.pOut.length = zs.length ∧
    res.llOut.length = zs.length ∧
    res.xPred.length = zs.length + 1 ∧ res.pPred.length = zs.length + 1 := by
  cases zs with
  | nil => cases Hrun
  | cons z0 rest =>
    obtain ⟨st, hL, hxOut, hpOut, hxPred, hpPred, hllOut, hzs, hupd, hres⟩ :=
      kalman_filter_some Hrun
    obtain ⟨h1, h2, h3, h4, h5, h6⟩ := kfLoop_counts (rest.length + 1) 0 _ st hL
    simp only [st0, List.length_nil, Nat.zero_add] at h1 h2 h3 h4 h5 h6
    refine ⟨?_, ?_, ?_, ?_, ?_⟩
    · rw [hxOut, h1]; simp
    · rw [hpOut, h2]; simp
    · rw [hllOut, h3]; simp
    · rw [hxPred]
      simp only [List.length_append, List.length_singleton, List.length_cons,
        List.length_nil, h4]
    · rw [hpPred]
      simp only [List.length_append, List.length_singleton, List.length_cons,
        List.length_nil, h5]

/-- Witness for C4: a concrete three-row run. -/
theorem output_lengths_witness :
    ∃ res, kalman_filter wPr wUp 0 wSv wX0 wZs = some res ∧
      (res.xOut.length = wZs.length ∧ res.pOut.length = wZs.length ∧
       res.llOut.length = wZs.length ∧
       res.xPred.length = wZs.length + 1 ∧ res.pPred.length = wZs.length + 1) :=
  ⟨_, rfl, output_lengths wPr wUp 0 wSv wX0 wZs _ rfl⟩

/-- Claim C3: on an observation tensor with `N ≥ 3` rows (original
indexing), the update of loop iteration 0 consumes row 0, the update of
iteration `i ≥ 1` consumes row `i + 1` for as long as advancement is
possible (`i + 1 ≤ len(zs[1:])`), row 1 is never passed to `update` (it is
skipped by the combination of `z = zs[0]`, the trim `zs = zs[1:]` and the
advance `z = zs[i+1]`), and the last row `N - 1` is consumed twice — by the
two final iterations — because advancement stops once `i + 1` reaches the
trimmed length (src/filter.py lines 110-135). -/
theorem update_row_schedule (pr : KFState → KFState) (up : KFState → List ℚ → KFState)
    (q : ℕ) (sv : List String) (x0 : KFState) (z0 : List ℚ)
    (rest : List (List ℚ)) (res : KFResult)
    (Hrun : kalman_filter pr up q sv x0 (z0 :: rest) = some res)
    (HN : 3 ≤ (z0 :: rest).length) :
    res.updTrace.length = (z0 :: rest).length ∧
    res.updTrace[0]? = some 0 ∧
    (∀ i, 1 ≤ i → i + 1 ≤ rest.length → res.updTrace[i]? = some (i + 1)) ∧
    1 ∉ res.updTrace ∧
    res.updTrace[rest.length - 1]? = some rest.length ∧
    res.updTrace[rest.length]? = some rest.length ∧
    res.updTrace.count rest.length = 2 := by
  obtain ⟨st, hL, _, _, _, _, _, _, hupd, _⟩ := kalman_filter_some Hrun
  have hm : 2 ≤ rest.length := by
    simp only [List.length_cons] at HN
    omega
  have htrace : res.updTrace
      = 0 :: (List.range' 2 (rest.length - 1) ++ [rest.length]) := by
    rw [hupd, kfLoop_trace _ _ _ _ hL]
    show [] ++ traceSeg rest.length 0 (rest.length + 1) 0 = _
    rw [List.nil_append]
    exact traceSeg_full hm
  have hmid : ∀ i, 1 ≤ i → i + 1 ≤ rest.length →
      res.updTrace[i]? = some (i + 1) := by
    intro i hi1 hi2
    obtain ⟨i', rfl⟩ : ∃ i', i = i' + 1 := ⟨i - 1, by omega⟩
    rw [htrace, List.getElem?_cons_succ, List.getElem?_append,
      if_pos (by rw [List.length_range']; omega)]
    rw [List.getElem?_range' 2 1 (show i' < rest.length - 1 by omega)]
    congr 1
    omega
  refine ⟨?_, ?_, hmid, ?_, ?_, ?_, ?_⟩
  · rw [htrace]
    simp only [List.length_cons, List.length_append, List.length_range',
      List.length_singleton, List.length_nil]
    omega
  · rw [htrace]
    exact List.getElem?_cons_zero
  · rw [htrace]
    intro hmem
    rcases List.mem_cons.mp hmem with h0 | hmem2
    · omega
    rcases List.mem_append.mp hmem2 with hr | hs
    · obtain ⟨k, hk, hke⟩ := List.mem_range'.mp hr
      omega
    · have := List.mem_singleton.mp hs
      omega
  · have := hmid (rest.length - 1) (by omega) (by omega)
    rwa [show rest.length - 1 + 1 = rest.length by omega] at this
  · have hlast : ∀ (L : List ℕ) (a k : ℕ), k = L.length → (L ++ [a])[k]? = some a := by
      intro L a k hk
      subst hk
      rw [List.getElem?_append_right (le_refl _), Nat.sub_self]
      rfl
    rw [htrace,
      show (0 : ℕ) :: (List.range' 2 (rest.length - 1) ++ [rest.length])
        = (0 :: List.range' 2 (rest.length - 1)) ++ [rest.length] from rfl]
    refine hlast _ _ _ ?_
    simp only [List.length_cons, List.length_range']
    omega
  · rw [htrace]
    rw [List.count_cons, List.count_append]
    have hc1 : (List.range' 2 (rest.length - 1)).count rest.length = 1 :=
      List.count_eq_one_of_mem (List.nodup_range' 2 (rest.length - 1))
        (List.mem_range'.mpr ⟨rest.length - 2, by omega, by omega⟩)
    rw [hc1]
    have hne : ((0 : ℕ) == rest.length) = false := by
      simp only [beq_eq_false_iff_ne, ne_eq]
      omega
    rw [hne]
    simp

/-- Witness for C3: a concrete three-row run (`q = 0`). -/
theorem update_row_schedule_witness :
    ∃ res, kalman_filter wPr wUp 0 wSv wX0 ([1, 0] :: [[2, 0], [3, 0]]) = some res ∧
      (res.updTrace.length = 3 ∧
       res.updTrace[0]? = some 0 ∧
       (∀ i, 1 ≤ i → i + 1 ≤ 2 → res.updTrace[i]? = some (i + 1)) ∧
       1 ∉ res.updTrace ∧
       res.updTrace[1]? = some 2 ∧
       res.updTrace[2]? = some 2 ∧
       res.updTrace.count 2 = 2) :=
  ⟨_, rfl, update_row_schedule wPr wUp 0 wSv wX0 [1, 0] [[2, 0], [3, 0]] _ rfl
    (by decide)⟩

/-- Claim C5: on a non-empty observation tensor, every read and write the
loop performs stays inside the tensor — the injection is guarded by
`i + q-1 + 1 < len(zs)` and the advance by `i + 1 < len(zs)` — so a run
never hits an out-of-bounds access (every such access is `none` in this
model, and the run returns `some`).  The hypotheses delimit well-formed
black-box collaborators: rows as wide as the state-variable list, an MA
mask that selects at least one column when `q > 0` (else the
`zs[i+1, mask][0]` read itself would raise), and an update step producing a
non-empty state mean (else `x[0]` would raise). -/
theorem loop_stays_in_bounds (pr : KFState → KFState) (up : KFState → List ℚ → KFState)
    (q : ℕ) (sv : List String) (x0 : KFState) (z0 : List ℚ) (rest : List (List ℚ))
    (Hrows : ∀ r ∈ (z0 :: rest), r.length = sv.length)
    (Hmask : 0 < q → ∃ j : ℕ, (ma_bool_mask sv)[j]? = some true)
    (Hup : ∀ s z2, (up s z2).x ≠ []) :
    (kalman_filter pr up q sv x0 (z0 :: rest)).isSome = true := by
  obtain ⟨st2, hL⟩ := kfLoop_total pr up (m := rest.length) Hmask Hup
    (rest.length + 1) 0 (st0 x0 z0 rest) rfl
    (fun r hr => Hrows r (List.mem_cons_of_mem z0 hr))
  have hL2 : kfLoop pr up q sv rest.length 0 (rest.length + 1)
      { kf := x0, zs := rest, z := z0, zi := 0, xOut := [], pOut := [],
        xPred := [], pPred := [], llOut := [], updTrace := [], resTrace := [] }
      = some st2 := hL
  simp only [kalman_filter]
  rw [hL2]
  rfl

/-- Witness for C5: a concrete run with `q = 1`. -/
theorem loop_stays_in_bounds_witness :
    (kalman_filter wPr wUp 1 wSv wX0 ([1, 0] :: [[2, 0], [3, 0]])).isSome = true :=
  loop_stays_in_bounds wPr wUp 1 wSv wX0 [1, 0] [[2, 0], [3, 0]] (by decide)
    (fun _ => ⟨1, by decide⟩)
    (fun _ _ => by show ([5] : List ℚ) ≠ []; decide)

/-- Claim C9: with `q = 0` the MA-injection branch is a no-op at every step
(no residual is ever recorded) and the run never mutates the observation
tensor: the trimmed tensor is returned unchanged, and row 0 (set aside
before the trim) is untouched as well, so every element of `zs` equals its
construction-time value. -/
theorem q_zero_frame (pr : KFState → KFState) (up : KFState → List ℚ → KFState)
    (sv : List String) (x0 : KFState) (z0 : List ℚ) (rest : List (List ℚ))
    (res : KFResult)
    (Hrun : kalman_filter pr up 0 sv x0 (z0 :: rest) = some res) :
    res.zsFinal = rest ∧ res.resTrace = [] := by
  obtain ⟨st, hL, _, _, _, _, _, hzs, _, hres⟩ := kalman_filter_some Hrun
  obtain ⟨ha, hb⟩ := kfLoop_q0 (rest.length + 1) 0 _ st hL
  constructor
  · rw [hzs, ha]
    rfl
  · rw [hres, hb]
    rfl

/-- Witness for C9: a concrete three-row run with `q = 0`. -/
theorem q_zero_frame_witness :
    ∃ res, kalman_filter wPr wUp 0 wSv wX0 ([1, 0] :: [[2, 0], [3, 0]]) = some res ∧
      res.zsFinal = [[2, 0], [3, 0]] ∧ res.resTrace = [] :=
  ⟨_, rfl, q_zero_frame wPr wUp wSv wX0 [1, 0] [[2, 0], [3, 0]] _ rfl⟩

/-- Claim C1: for a run with `q > 0` and a step `i` with `i + q` inside the
trimmed tensor, the loop computes the scalar residual
`zs[i+1, ma_bool_mask][0] - x[0]` (this is the `v` recorded at step `i` by
the instrumented loop; see `maInject`) and writes it into the MA-masked
slot at lag `iz + 1` of row `i + iz + 1` for every `iz < q`; since the lag
offset determines the writing step uniquely (`(row, lag)` is written only
by step `row - lag`), no later step overwrites these slots and the step-`i`
residual is what the final tensor holds there — the claim's last-writer-wins
reading, with each slot having exactly one writer.  The disjointness
hypothesis says distinct lag names select distinct columns, which holds for
the `ma.L1 .. ma.Lq` naming convention. -/
theorem ma_injection_persistence (pr : KFState → KFState)
    (up : KFState → List ℚ → KFState) (q : ℕ) (sv : List String) (x0 : KFState)
    (z0 : List ℚ) (rest : List (List ℚ)) (res : KFResult) (i : ℕ)
    (Hrun : kalman_filter pr up q sv x0 (z0 :: rest) = some res)
    (Hq : 0 < q) (Hi : i + q < rest.length)
    (Hdisj : ∀ (a b c : ℕ), a < q → b < q →
      (ma_lag_mask sv (a + 1))[c]? = some true →
      (ma_lag_mask sv (b + 1))[c]? = some true → a = b) :
    ∃ v, (i, v) ∈ res.resTrace ∧
      ∀ (iz : ℕ), iz < q → ∀ (c : ℕ), (ma_lag_mask sv (iz + 1))[c]? = some true →
        (res.zsFinal[i + iz + 1]?.bind (fun row => row[c]?)) = some v := by
  obtain ⟨st, hL, _, _, _, _, _, hzs, _, hres⟩ := kalman_filter_some Hrun
  obtain ⟨hP1, hPex⟩ := kfLoop_inject Hdisj (rest.length + 1) 0 _ st hL
    (by intro j v hjv; simp [st0] at hjv)
    (by intro j v hjv; simp [st0] at hjv)
    (by intro j hj hq2 hg2; omega)
  have hguard : i + (q - 1) + 1 < rest.length := by omega
  obtain ⟨v, hv⟩ := hPex i (by omega) Hq hguard
  refine ⟨v, by rw [hres]; exact hv, ?_⟩
  intro iz hiz c hc
  rw [hzs]
  exact hP1 i v hv iz hiz c hc

/-- Witness for C1: a concrete run with `q = 1`, step `i = 0`. -/
theorem ma_injection_persistence_witness :
    ∃ res, kalman_filter wPr wUp 1 wSv wX0 ([1, 0] :: [[2, 0], [3, 0]]) = some res ∧
      ∃ v, ((0 : ℕ), v) ∈ res.resTrace ∧
        ∀ (iz : ℕ), iz < 1 → ∀ (c : ℕ),
          (ma_lag_mask wSv (iz + 1))[c]? = some true →
          (res.zsFinal[0 + iz + 1]?.bind (fun row => row[c]?)) = some v :=
  ⟨_, rfl, ma_injection_persistence wPr wUp 1 wSv wX0 [1, 0] [[2, 0], [3, 0]] _ 0
    rfl (by decide) (by decide) (fun a b c ha hb _ _ => by omega)⟩

end BayesFilter
